import Mathlib

/-!
Verification of the aggregation projection-node core
(`parsed_aggregation_projection_node.cpp`).

A `ProjectionNode` holds a compiled projection specification: plain
projected field names, computed expressions, child subtrees, and the
declaration-order list used for deterministic output.  Applying a node to a
document runs a structural projection pass followed by an expression
overlay pass.  The Inclusion/Exclusion mode strategy hooks and the member
container choices live outside the visible translation unit and are
modelled from the design document (mode table and data-model section).
-/

set_option maxHeartbeats 1000000

namespace MongoProjection

/-- BSON-like values: missing, scalars, sub-documents (ordered field
lists), arrays of values. -/
inductive Value : Type where
  | missing : Value
  | intV : Int → Value
  | boolV : Bool → Value
  | strV : String → Value
  | docV : List (String × Value) → Value
  | arrV : List Value → Value

/-- The ordered field list of a document. -/
abbrev Fields := List (String × Value)

def Value.isMissing : Value → Bool
  | .missing => true
  | _ => false

def Value.isArray : Value → Bool
  | .arrV _ => true
  | _ => false

/-- A value that is neither an object nor an array (scalar or missing). -/
def Value.isLeaf : Value → Bool
  | .docV _ => false
  | .arrV _ => false
  | _ => true

/-- A `Document`: ordered fields plus the metadata side-channel
(modelled as an opaque tag copied wholesale by `copyMetaDataFrom`). -/
structure Document where
  fields : Fields
  md : Nat

/-- First-match association-list lookup (`StringMap::find` /
`Document::operator[]`). -/
def lookupA {α : Type} : List (String × α) → String → Option α
  | [], _ => none
  | (k, v) :: rest, f => if k = f then some v else lookupA rest f

/-- Replace the value at a key in place, or append a fresh entry
(`MutableDocument::setField`, `StringMap::operator[]= `). -/
def setA {α : Type} : List (String × α) → String → α → List (String × α)
  | [], k, v => [(k, v)]
  | (k', v') :: rest, k, v =>
    if k' = k then (k', v) :: rest else (k', v') :: setA rest k v

/-- The key sequence of an association list. -/
def keysA {α : Type} (l : List (String × α)) : List String := l.map Prod.fst

/-- `Document::operator[]`: the stored value, or missing when absent. -/
def getVal (l : Fields) (k : String) : Value := (lookupA l k).getD .missing

/-- Whether a slot for the key is present at all. -/
def hasKey {α : Type} (l : List (String × α)) (k : String) : Bool :=
  (lookupA l k).isSome

/-- Modelled from the spec: the opaque expression contract
(`evaluate` / `optimize` / `serialize`); the expression subsystem is an
external collaborator, so a small concrete language stands in for it. -/
inductive Expression : Type where
  | const : Value → Expression
  | fieldRef : String → Expression
  | add : Expression → Expression → Expression

def addValues : Value → Value → Value
  | .intV a, .intV b => .intV (a + b)
  | _, _ => .missing

/-- `Expression::evaluate(root, variables)`: evaluation against the
top-level root document. -/
def Expression.evaluate : Expression → Document → Value
  | .const v, _ => v
  | .fieldRef n, root => getVal root.fields n
  | .add a b, root => addValues (a.evaluate root) (b.evaluate root)

/-- `Expression::optimize`: constant folding, delegated to the expression
subsystem. -/
def Expression.optimize : Expression → Expression
  | .const v => .const v
  | .fieldRef n => .fieldRef n
  | .add a b =>
    match a.optimize, b.optimize with
    | .const x, .const y => .const (addValues x y)
    | a', b' => .add a' b'

/-- `Expression::serialize(explain)`. -/
def Expression.serialize : Expression → Bool → Value
  | .const v, _ => .docV [("$const", v)]
  | .fieldRef n, _ => .strV ("$" ++ n)
  | .add a b, ex => .docV [("$add", .arrV [a.serialize ex, b.serialize ex])]

/-- Modelled from the spec: the two semantic mode variants
(InclusionNode / ExclusionNode subclasses are outside the visible core). -/
inductive Mode : Type where
  | inclusion : Mode
  | exclusion : Mode
deriving DecidableEq

inductive ArrayRecursionPolicy : Type where
  | kRecurseNestedArrays : ArrayRecursionPolicy
  | kDoNotRecurseNestedArrays : ArrayRecursionPolicy
deriving DecidableEq

inductive ComputedFieldsPolicy : Type where
  | kAllowComputedFields : ComputedFieldsPolicy
  | kBanComputedFields : ComputedFieldsPolicy
deriving DecidableEq

inductive DefaultIdPolicy : Type where
  | kIncludeId : DefaultIdPolicy
  | kExcludeId : DefaultIdPolicy
deriving DecidableEq

/-- `ProjectionPolicies`: immutable value bundle fixed at construction. -/
structure ProjectionPolicies where
  idPolicy : DefaultIdPolicy
  arrayRecursionPolicy : ArrayRecursionPolicy
  computedFieldsPolicy : ComputedFieldsPolicy
deriving DecidableEq

/-- Modelled from the spec: the mode's seed hook
(`initializeOutputDocument`): Inclusion seeds an empty document,
Exclusion a full copy of the input. -/
def initializeOutputDocument : Mode → Fields → Fields
  | .inclusion, _ => []
  | .exclusion, input => input

/-- Modelled from the spec: the mode's leaf-projection hook
(`applyLeafProjectionToValue`): Inclusion keeps the value, Exclusion
yields missing. -/
def applyLeafProjectionToValue : Mode → Value → Value
  | .inclusion, v => v
  | .exclusion, _ => .missing

/-- Modelled from the spec: the mode's skipped-value hook
(`transformSkippedValueForOutput`): Inclusion drops (missing), Exclusion
keeps the value unchanged. -/
def transformSkippedValueForOutput : Mode → Value → Value
  | .inclusion, _ => .missing
  | .exclusion, v => v

/-- One projection-tree node: mode, policies, path to the node, plain
projected fields, computed expressions, owned children, and
`_orderToProcessAdditionsAndChildren` (declaration order of expressions
and children).  Containers are modelled from the spec's data-model
section: the plain-field set is unordered (membership alone matters; a
duplicate-free list in insertion order is one of its stable iteration
orders), and the expression/child maps are keyed association lists. -/
inductive ProjectionNode : Type where
  | node :
      Mode → ProjectionPolicies → String →
      List String →                       -- _projectedFields
      List (String × Expression) →        -- _expressions
      List (String × ProjectionNode) →    -- _children
      List String →                       -- _orderToProcessAdditionsAndChildren
      ProjectionNode

namespace ProjectionNode

def mode : ProjectionNode → Mode
  | .node m _ _ _ _ _ _ => m

def policies : ProjectionNode → ProjectionPolicies
  | .node _ p _ _ _ _ _ => p

def pathToNode : ProjectionNode → String
  | .node _ _ pa _ _ _ _ => pa

def projectedFields : ProjectionNode → List String
  | .node _ _ _ pf _ _ _ => pf

def expressions : ProjectionNode → List (String × Expression)
  | .node _ _ _ _ ex _ _ => ex

def children : ProjectionNode → List (String × ProjectionNode)
  | .node _ _ _ _ _ ch _ => ch

def order : ProjectionNode → List String
  | .node _ _ _ _ _ _ ord => ord

end ProjectionNode

/-- Immediate expression names of a node. -/
def exprNames (t : ProjectionNode) : List String := keysA t.expressions

/-- Immediate child names of a node. -/
def childNames (t : ProjectionNode) : List String := keysA t.children

/-- `FieldPath::getFullyQualifiedPath`: dotted concatenation. -/
def getFullyQualifiedPath (base field : String) : String :=
  if base = "" then field else base ++ "." ++ field

/-- The child-factory hook: a fresh empty node with the same mode and
policies and the extended path. -/
def ProjectionNode.makeChild (t : ProjectionNode) (field : String) :
    ProjectionNode :=
  .node t.mode t.policies (getFullyQualifiedPath t.pathToNode field) [] [] [] []

/-- `ProjectionNode::getChild`. -/
def ProjectionNode.getChild (t : ProjectionNode) (f : String) :
    Option ProjectionNode :=
  lookupA t.children f

/-- An empty root node. -/
def emptyRoot (m : Mode) (p : ProjectionPolicies) : ProjectionNode :=
  .node m p "" [] [] [] []

/-- `str::contains(field, ".")`: whether the name holds a path
separator. -/
def containsDot (s : String) : Bool := s.data.contains '.'

/-- `ProjectionNode::addProjectionForPath` (total form; its `addChild`
invariant check is carried by the `Except` form below and bridged by
`addProjectionForPathE_eq_ok`).  A path is a non-empty list of
components; the empty path cannot occur (`FieldPath` is non-empty). -/
def addProjectionForPathT : ProjectionNode → List String → ProjectionNode
  | t, [] => t
  | .node m p pa pf ex ch ord, [f] =>
      .node m p pa (if f ∈ pf then pf else pf ++ [f]) ex ch ord
  | .node m p pa pf ex ch ord, f :: g :: rest =>
      match lookupA ch f with
      | some c =>
          .node m p pa pf ex (setA ch f (addProjectionForPathT c (g :: rest))) ord
      | none =>
          .node m p pa pf ex
            (ch ++ [(f, addProjectionForPathT
              (.node m p (getFullyQualifiedPath pa f) [] [] [] []) (g :: rest))])
            (ord ++ [f])

/-- `ProjectionNode::addExpressionForPath` (total form; the computed-fields
policy invariant is carried by the `Except` form below). -/
def addExpressionForPathT :
    ProjectionNode → List String → Expression → ProjectionNode
  | t, [], _ => t
  | .node m p pa pf ex ch ord, [f], e =>
      .node m p pa pf (setA ex f e) ch (ord ++ [f])
  | .node m p pa pf ex ch ord, f :: g :: rest, e =>
      match lookupA ch f with
      | some c =>
          .node m p pa pf ex
            (setA ch f (addExpressionForPathT c (g :: rest) e)) ord
      | none =>
          .node m p pa pf ex
            (ch ++ [(f, addExpressionForPathT
              (.node m p (getFullyQualifiedPath pa f) [] [] [] []) (g :: rest) e)])
            (ord ++ [f])

/-- `ProjectionNode::addChild` with its `invariant(!str::contains(field,
"."))` modelled as a fast failure. -/
def addChildE (t : ProjectionNode) (f : String) :
    Except String ProjectionNode :=
  if containsDot f then .error "invariant failure: child name holds a path separator"
  else match t with
    | .node m p pa pf ex ch ord =>
        .ok (.node m p pa pf ex (ch ++ [(f, ProjectionNode.makeChild (.node m p pa pf ex ch ord) f)]) (ord ++ [f]))

/-- `addProjectionForPath` with the `addChild` dot invariant modelled as a
fast failure. -/
def addProjectionForPathE : ProjectionNode → List String → Except String ProjectionNode
  | t, [] => .ok t
  | .node m p pa pf ex ch ord, [f] =>
      .ok (.node m p pa (if f ∈ pf then pf else pf ++ [f]) ex ch ord)
  | .node m p pa pf ex ch ord, f :: g :: rest =>
      match lookupA ch f with
      | some c => do
          let c' ← addProjectionForPathE c (g :: rest)
          .ok (.node m p pa pf ex (setA ch f c') ord)
      | none =>
          if containsDot f then .error "invariant failure: child name holds a path separator"
          else do
            let c' ← addProjectionForPathE
              (.node m p (getFullyQualifiedPath pa f) [] [] [] []) (g :: rest)
            .ok (.node m p pa pf ex (ch ++ [(f, c')]) (ord ++ [f]))

/-- `addExpressionForPath` with its
`invariant(computedFieldsPolicy == kAllowComputedFields)` (checked on
entry at every recursion level) and the `addChild` dot invariant modelled
as fast failures. -/
def addExpressionForPathE :
    ProjectionNode → List String → Expression → Except String ProjectionNode
  | t, path, e =>
    if t.policies.computedFieldsPolicy ≠ ComputedFieldsPolicy.kAllowComputedFields then
      .error "invariant failure: computed fields are banned"
    else
      match t, path with
      | t, [] => .ok t
      | .node m p pa pf ex ch ord, [f] =>
          .ok (.node m p pa pf (setA ex f e) ch (ord ++ [f]))
      | .node m p pa pf ex ch ord, f :: g :: rest =>
          match lookupA ch f with
          | some c => do
              let c' ← addExpressionForPathE c (g :: rest) e
              .ok (.node m p pa pf ex (setA ch f c') ord)
          | none =>
              if containsDot f then .error "invariant failure: child name holds a path separator"
              else do
                let c' ← addExpressionForPathE
                  (.node m p (getFullyQualifiedPath pa f) [] [] [] []) (g :: rest) e
                .ok (.node m p pa pf ex (ch ++ [(f, c')]) (ord ++ [f]))
termination_by t path e => path.length

/-- Size bound used for termination of the recursive passes. -/
def lookupA_sizeOf_lt {l : List (String × ProjectionNode)} {k : String}
    {c : ProjectionNode} (h : lookupA l k = some c) : sizeOf c < sizeOf l := by
  induction l with
  | nil => simp [lookupA] at h
  | cons hd tl ih =>
    obtain ⟨k', c'⟩ := hd
    by_cases hk : k' = k
    · simp only [lookupA, if_pos hk, Option.some.injEq] at h
      subst h
      simp only [List.cons.sizeOf_spec, Prod.mk.sizeOf_spec]
      omega
    · simp only [lookupA, if_neg hk] at h
      have := ih h
      simp only [List.cons.sizeOf_spec]
      omega

/-- Size bound used for termination of the recursive passes. -/
def getChild_sizeOf_lt {t : ProjectionNode} {k : String}
    {c : ProjectionNode} (h : t.getChild k = some c) : sizeOf c < sizeOf t := by
  cases t with
  | node m p pa pf ex ch ord =>
    simp only [ProjectionNode.getChild, ProjectionNode.children] at h
    have := lookupA_sizeOf_lt h
    simp only [ProjectionNode.node.sizeOf_spec]
    omega

/-- Size bound used for termination of the recursive passes. -/
def children_sizeOf_lt (t : ProjectionNode) :
    sizeOf t.children < sizeOf t := by
  cases t with
  | node m p pa pf ex ch ord =>
    simp only [ProjectionNode.children, ProjectionNode.node.sizeOf_spec]
    omega

/-- The compensating block at the end of `applyProjections`: force every
projected name that is missing in the input to an explicitly missing
output slot. -/
def compLoop : List String → Fields → Fields → Fields
  | [], _, out => out
  | n :: rest, input, out =>
      compLoop rest input
        (if (getVal input n).isMissing then setA out n .missing else out)

mutual

/-- The field loop of `ProjectionNode::applyProjections`: walk the input
document's fields in order; plain projected names get the leaf
projection, names with a child node get the child's recursive
projection, all other slots are left as seeded. -/
def applyProjectionsLoop : ProjectionNode → Fields → Fields → Fields
  | _, [], out => out
  | t, (k, v) :: rest, out =>
    if k ∈ t.projectedFields then
      applyProjectionsLoop t rest (setA out k (applyLeafProjectionToValue t.mode v))
    else
      match _h : t.getChild k with
      | some c => applyProjectionsLoop t rest (setA out k (applyProjectionsToValue c v))
      | none => applyProjectionsLoop t rest out
termination_by t l out => 2 * (sizeOf t + sizeOf l)
decreasing_by
  all_goals simp only [List.cons.sizeOf_spec, Prod.mk.sizeOf_spec]
  all_goals first
    | omega
    | (have hc := getChild_sizeOf_lt _h; omega)

/-- `ProjectionNode::applyProjections`: the field loop followed by the
mode-probed compensating block for absent projected fields. -/
def applyProjections : ProjectionNode → Fields → Fields → Fields
  | t, input, out =>
    let out1 := applyProjectionsLoop t input out
    if (applyLeafProjectionToValue t.mode (.boolV true)).isMissing then
      compLoop t.projectedFields input out1
    else out1
termination_by t input out => 2 * (sizeOf t + sizeOf input) + 1
decreasing_by
  omega

/-- `ProjectionNode::applyProjectionsToValue`: recurse into objects,
map over arrays (with the nested-array policy), and apply the
skipped-value transform to scalars and missing. -/
def applyProjectionsToValue : ProjectionNode → Value → Value
  | t, .docV fields =>
      .docV (applyProjections t fields (initializeOutputDocument t.mode fields))
  | t, .arrV elems => .arrV (applyProjectionsToList t elems)
  | t, v => transformSkippedValueForOutput t.mode v
termination_by t v => 2 * (sizeOf t + sizeOf v) + 2
decreasing_by
  all_goals simp only [Value.docV.sizeOf_spec, Value.arrV.sizeOf_spec]
  all_goals omega

/-- Element-wise traversal of an array during the structural pass. -/
def applyProjectionsToList : ProjectionNode → List Value → List Value
  | _, [] => []
  | t, v :: rest =>
      (if v.isArray &&
          decide (t.policies.arrayRecursionPolicy =
            ArrayRecursionPolicy.kDoNotRecurseNestedArrays) then
        transformSkippedValueForOutput t.mode v
      else applyProjectionsToValue t v) :: applyProjectionsToList t rest
termination_by t vs => 2 * (sizeOf t + sizeOf vs) + 2
decreasing_by
  all_goals simp only [List.cons.sizeOf_spec]
  all_goals omega

end

mutual

/-- `ProjectionNode::subtreeContainsComputedFields`: direct expressions,
or transitively any child subtree (recomputed on each call). -/
def subtreeContainsComputedFields : ProjectionNode → Bool
  | t => !t.expressions.isEmpty || anyChildComputed t.children
termination_by t => sizeOf t
decreasing_by
  exact children_sizeOf_lt t

/-- `std::any_of` over the child map. -/
def anyChildComputed : List (String × ProjectionNode) → Bool
  | [] => false
  | (_, c) :: rest => subtreeContainsComputedFields c || anyChildComputed rest
termination_by l => sizeOf l
decreasing_by
  all_goals simp only [List.cons.sizeOf_spec, Prod.mk.sizeOf_spec]
  all_goals omega

end

mutual

/-- The loop of `ProjectionNode::applyExpressions`: walk the declared
order over the output built so far; children recurse with the original
root, expression names are evaluated against the root and overwrite the
slot.  (The code's `invariant(expressionIt != _expressions.end())` cannot
fire on a well-formed tree; on a corrupt one the slot is left alone.) -/
def applyExpressionsLoop (root : Document) :
    ProjectionNode → List String → Fields → Fields
  | _, [], out => out
  | t, f :: rest, out =>
    match _h : t.getChild f with
    | some c =>
        applyExpressionsLoop root t rest
          (setA out f (applyExpressionsToValue root c (getVal out f)))
    | none =>
        match lookupA t.expressions f with
        | some e => applyExpressionsLoop root t rest (setA out f (e.evaluate root))
        | none => applyExpressionsLoop root t rest out
termination_by t ord out => (sizeOf t, 0, sizeOf ord)
decreasing_by
  all_goals first
    | exact Prod.Lex.left _ _ (getChild_sizeOf_lt _h)
    | (apply Prod.Lex.right
       apply Prod.Lex.right
       simp only [List.cons.sizeOf_spec]
       omega)

/-- `ProjectionNode::applyExpressionsToValue`: recurse into objects and
array elements; on a scalar or missing slot, materialize a brand-new
document from this subtree's expressions when it has any, and otherwise
apply the skipped-value transform. -/
def applyExpressionsToValue (root : Document) : ProjectionNode → Value → Value
  | t, .docV fields => .docV (applyExpressionsLoop root t t.order fields)
  | t, .arrV elems => .arrV (applyExpressionsToList root t elems)
  | t, v =>
    if subtreeContainsComputedFields t then
      .docV (applyExpressionsLoop root t t.order [])
    else transformSkippedValueForOutput t.mode v
termination_by t v => (sizeOf t, 1, sizeOf v)
decreasing_by
  all_goals first
    | (apply Prod.Lex.right
       exact Prod.Lex.left _ _ (by omega))
    | (apply Prod.Lex.right
       apply Prod.Lex.right
       simp only [Value.arrV.sizeOf_spec]
       omega)

/-- Element-wise traversal of an array during the overlay pass. -/
def applyExpressionsToList (root : Document) :
    ProjectionNode → List Value → List Value
  | _, [] => []
  | t, v :: rest =>
      applyExpressionsToValue root t v :: applyExpressionsToList root t rest
termination_by t vs => (sizeOf t, 1, sizeOf vs)
decreasing_by
  all_goals (apply Prod.Lex.right
             apply Prod.Lex.right
             simp only [List.cons.sizeOf_spec]
             omega)

end

/-- `ProjectionNode::applyToDocument`: seed, structural pass, overlay
pass, then unconditional metadata pass-through. -/
def applyToDocument (t : ProjectionNode) (d : Document) : Document :=
  let out0 := initializeOutputDocument t.mode d.fields
  let out1 := applyProjections t d.fields out0
  let out2 := applyExpressionsLoop d t t.order out1
  { fields := out2, md := d.md }

mutual

/-- `ProjectionNode::serialize`: the identifier field first when plainly
projected, then the remaining plain fields (each carrying the node's
single boolean), then expressions/children in declaration order.
(The two `invariant`s in the declared-order loop cannot fire on a
well-formed tree; on a corrupt one the entry is absent.) -/
def serializeNode : ProjectionNode → Bool → List (String × Value)
  | t, explain =>
    let projVal := !(applyLeafProjectionToValue t.mode (.boolV true)).isMissing
    (if "_id" ∈ t.projectedFields then [("_id", .boolV projVal)] else []) ++
      ((t.projectedFields.filter (· ≠ "_id")).map fun n => (n, .boolV projVal)) ++
      serializeOrder t t.order explain
termination_by t _ => (sizeOf t, 1, 0)
decreasing_by
  apply Prod.Lex.right
  exact Prod.Lex.left _ _ (by omega)

/-- The declared-order loop of `serialize`: children become nested
sub-documents, expressions use the expression contract's serialization. -/
def serializeOrder : ProjectionNode → List String → Bool → List (String × Value)
  | _, [], _ => []
  | t, f :: rest, explain =>
    (match _h : t.getChild f with
     | some c => [(f, .docV (serializeNode c explain))]
     | none =>
       match lookupA t.expressions f with
       | some e => [(f, e.serialize explain)]
       | none => []) ++ serializeOrder t rest explain
termination_by t ord _ => (sizeOf t, 0, sizeOf ord)
decreasing_by
  all_goals first
    | exact Prod.Lex.left _ _ (getChild_sizeOf_lt _h)
    | (apply Prod.Lex.right
       apply Prod.Lex.right
       simp only [List.cons.sizeOf_spec]
       omega)

end

mutual

/-- `ProjectionNode::optimize`: replace every stored expression with its
optimized self and recurse into every child; nothing else changes. -/
def optimizeNode : ProjectionNode → ProjectionNode
  | .node m p pa pf ex ch ord =>
      .node m p pa pf (ex.map fun pr => (pr.1, pr.2.optimize)) (optimizeChildren ch) ord
termination_by t => sizeOf t
decreasing_by
  simp only [ProjectionNode.node.sizeOf_spec]
  omega

/-- The child loop of `optimize`. -/
def optimizeChildren :
    List (String × ProjectionNode) → List (String × ProjectionNode)
  | [] => []
  | (n, c) :: rest => (n, optimizeNode c) :: optimizeChildren rest
termination_by l => sizeOf l
decreasing_by
  all_goals simp only [List.cons.sizeOf_spec, Prod.mk.sizeOf_spec]
  all_goals omega

end

mutual

/-- The tree with every stored expression erased: the observable "shape"
(mode, policies, paths, plain fields, child names, declared order). -/
def eraseExprs : ProjectionNode → ProjectionNode
  | .node m p pa pf _ ch ord => .node m p pa pf [] (eraseExprsChildren ch) ord
termination_by t => sizeOf t
decreasing_by
  simp only [ProjectionNode.node.sizeOf_spec]
  omega

/-- The child loop of `eraseExprs`. -/
def eraseExprsChildren :
    List (String × ProjectionNode) → List (String × ProjectionNode)
  | [] => []
  | (n, c) :: rest => (n, eraseExprs c) :: eraseExprsChildren rest
termination_by l => sizeOf l
decreasing_by
  all_goals simp only [List.cons.sizeOf_spec, Prod.mk.sizeOf_spec]
  all_goals omega

end

mutual

/-- All fully expanded terminal paths of a tree: one single-component
path per plain field and per expression name, and every child's terminal
path prefixed by the child's name.  Every path ever added to the tree
shows up here. -/
def terminalPaths : ProjectionNode → List (List String)
  | t => (t.projectedFields.map fun n => [n]) ++
      ((exprNames t).map fun n => [n]) ++ terminalPathsChildren t.children
termination_by t => sizeOf t
decreasing_by
  exact children_sizeOf_lt t

/-- The child part of `terminalPaths`. -/
def terminalPathsChildren : List (String × ProjectionNode) → List (List String)
  | [] => []
  | (n, c) :: rest =>
      ((terminalPaths c).map fun s => n :: s) ++ terminalPathsChildren rest
termination_by l => sizeOf l
decreasing_by
  all_goals simp only [List.cons.sizeOf_spec, Prod.mk.sizeOf_spec]
  all_goals omega

end

/-- The per-node bookkeeping invariant: plain fields, expression names
and child names are duplicate-free and pairwise disjoint, and the
declared order lists exactly the expression and child names, each once. -/
def NodeInv (t : ProjectionNode) : Prop :=
  t.projectedFields.Nodup ∧ (exprNames t).Nodup ∧ (childNames t).Nodup ∧
    t.order.Nodup ∧
    (∀ n, n ∈ t.order ↔ (n ∈ exprNames t ∨ n ∈ childNames t)) ∧
    (∀ n, n ∈ t.projectedFields → n ∉ exprNames t) ∧
    (∀ n, n ∈ t.projectedFields → n ∉ childNames t) ∧
    (∀ n, n ∈ exprNames t → n ∉ childNames t)

mutual

/-- The whole-tree invariant: `NodeInv` at every node, plus the fact
that every child subtree carries at least one terminal path. -/
def TreeInv : ProjectionNode → Prop
  | t => NodeInv t ∧ ChildrenInv t.children
termination_by t => sizeOf t
decreasing_by
  exact children_sizeOf_lt t

/-- The child part of `TreeInv`. -/
def ChildrenInv : List (String × ProjectionNode) → Prop
  | [] => True
  | (_, c) :: rest => terminalPaths c ≠ [] ∧ TreeInv c ∧ ChildrenInv rest
termination_by l => sizeOf l
decreasing_by
  all_goals simp only [List.cons.sizeOf_spec, Prod.mk.sizeOf_spec]
  all_goals omega

end

mutual

/-- Every node of the tree permits computed fields. -/
def PoliciesAllow : ProjectionNode → Prop
  | t => t.policies.computedFieldsPolicy =
      ComputedFieldsPolicy.kAllowComputedFields ∧ ChildrenAllow t.children
termination_by t => sizeOf t
decreasing_by
  exact children_sizeOf_lt t

/-- The child part of `PoliciesAllow`. -/
def ChildrenAllow : List (String × ProjectionNode) → Prop
  | [] => True
  | (_, c) :: rest => PoliciesAllow c ∧ ChildrenAllow rest
termination_by l => sizeOf l
decreasing_by
  all_goals simp only [List.cons.sizeOf_spec, Prod.mk.sizeOf_spec]
  all_goals omega

end

/-- One construction call: add a plain path or add an expression path. -/
inductive AddOp : Type where
  | proj : List String → AddOp
  | expr : List String → Expression → AddOp

def AddOp.path : AddOp → List String
  | .proj p => p
  | .expr p _ => p

/-- Perform one construction call on a tree. -/
def applyOp (t : ProjectionNode) : AddOp → ProjectionNode
  | .proj p => addProjectionForPathT t p
  | .expr p e => addExpressionForPathT t p e

/-- Perform a sequence of construction calls, left to right. -/
def buildOps (t : ProjectionNode) (ops : List AddOp) : ProjectionNode :=
  ops.foldl applyOp t

/-- One path is an extension of another (shares it as a leading
segment); used to rule out colliding construction paths. -/
def PathLe (p q : List String) : Prop := ∃ r, p ++ r = q

/-- A family of construction paths is collision-free: no added path
extends another (equal paths included). -/
def IndepPaths (ops : List AddOp) : Prop :=
  ops.Pairwise fun a b => ¬ PathLe a.path b.path ∧ ¬ PathLe b.path a.path

/-! ### Concrete instances used in witnesses and counterexamples -/

/-- Policies: allow computed fields, recurse nested arrays. -/
def polAllow : ProjectionPolicies :=
  ⟨.kIncludeId, .kRecurseNestedArrays, .kAllowComputedFields⟩

/-- Policies: allow computed fields, do not recurse nested arrays. -/
def polNoRecurse : ProjectionPolicies :=
  ⟨.kIncludeId, .kDoNotRecurseNestedArrays, .kAllowComputedFields⟩

/-- Policies with computed fields banned. -/
def polBan : ProjectionPolicies :=
  ⟨.kIncludeId, .kRecurseNestedArrays, .kBanComputedFields⟩

/-- The tree built by adding plain path `a.b` and then plain path `a`. -/
def exTreeOverlap : ProjectionNode :=
  addProjectionForPathT
    (addProjectionForPathT (emptyRoot .inclusion polAllow) ["a", "b"]) ["a"]

/-- The tree built by adding expression `a` and then expression `a.b`. -/
def exTreeExprChild : ProjectionNode :=
  addExpressionForPathT
    (addExpressionForPathT (emptyRoot .inclusion polAllow) ["a"] (.const (.intV 1)))
    ["a", "b"] (.const (.intV 2))

/-- An exclusion tree whose only entry is the expression `7` at `a.x`. -/
def exTreeAX : ProjectionNode :=
  addExpressionForPathT (emptyRoot .exclusion polAllow) ["a", "x"] (.const (.intV 7))

/-- An exclusion tree for plain path `a.b` under the no-nested-recursion
policy. -/
def exTreeAB : ProjectionNode :=
  addProjectionForPathT (emptyRoot .exclusion polNoRecurse) ["a", "b"]

/-- The document `{a: 5}` carrying a metadata tag. -/
def exDocA5 : Document := ⟨[("a", .intV 5)], 3⟩

/-- The document `{a: [[{b: 1}]]}`. -/
def exDocNested : Document := ⟨[("a", .arrV [.arrV [.docV [("b", .intV 1)]]])], 0⟩

/-- An exclusion tree plainly projecting `secret`. -/
def exTreeSecret : ProjectionNode :=
  addProjectionForPathT (emptyRoot .exclusion polAllow) ["secret"]

/-- An inclusion tree plainly projecting `name`. -/
def exTreeName : ProjectionNode :=
  addProjectionForPathT (emptyRoot .inclusion polAllow) ["name"]

/-- The document `{a: 1, b: 3}`. -/
def exDocAB : Document := ⟨[("a", .intV 1), ("b", .intV 3)], 0⟩

/-- The document `{a: 1, secret: 2, b: 3}`. -/
def exDocASB : Document :=
  ⟨[("a", .intV 1), ("secret", .intV 2), ("b", .intV 3)], 0⟩

/-- The child node sitting under `a` in `exTreeOverlap`. -/
def exTreeOverlapChild : ProjectionNode :=
  .node .inclusion polAllow "a" ["b"] [] [] []

/-! ### Association-list lemmas -/

section AssocLemmas

variable {α : Type}

@[simp] theorem keysA_nil : keysA ([] : List (String × α)) = [] := rfl

@[simp] theorem keysA_cons (k : String) (v : α) (l : List (String × α)) :
    keysA ((k, v) :: l) = k :: keysA l := rfl

theorem keysA_append (l₁ l₂ : List (String × α)) :
    keysA (l₁ ++ l₂) = keysA l₁ ++ keysA l₂ := List.map_append _ _ _

theorem lookupA_eq_none {l : List (String × α)} {k : String} :
    lookupA l k = none ↔ k ∉ keysA l := by
  induction l with
  | nil => simp [lookupA]
  | cons hd tl ih =>
    obtain ⟨k', v'⟩ := hd
    by_cases hk : k' = k
    · subst hk
      simp [lookupA]
    · simp only [lookupA, if_neg hk, keysA_cons, List.mem_cons, ih]
      constructor
      · rintro h (h1 | h1)
        · exact hk h1.symm
        · exact h h1
      · intro h h1
        exact h (Or.inr h1)

theorem lookupA_isSome_iff {l : List (String × α)} {k : String} :
    (lookupA l k).isSome = true ↔ k ∈ keysA l := by
  rw [Option.isSome_iff_ne_none]
  constructor
  · intro h
    by_contra hk
    exact h (lookupA_eq_none.mpr hk)
  · intro h hn
    exact lookupA_eq_none.mp hn h

theorem mem_of_lookupA {l : List (String × α)} {k : String} {v : α}
    (h : lookupA l k = some v) : (k, v) ∈ l := by
  induction l with
  | nil => simp [lookupA] at h
  | cons hd tl ih =>
    obtain ⟨k', v'⟩ := hd
    by_cases hk : k' = k
    · simp only [lookupA, if_pos hk, Option.some.injEq] at h
      subst hk; subst h
      exact List.mem_cons_self _ _
    · simp only [lookupA, if_neg hk] at h
      exact List.mem_cons_of_mem _ (ih h)

theorem lookupA_of_mem {l : List (String × α)} {k : String} {v : α}
    (hnd : (keysA l).Nodup) (h : (k, v) ∈ l) : lookupA l k = some v := by
  induction l with
  | nil => simp at h
  | cons hd tl ih =>
    obtain ⟨k', v'⟩ := hd
    simp only [keysA_cons, List.nodup_cons] at hnd
    rcases List.mem_cons.mp h with h1 | h1
    · obtain ⟨rfl, rfl⟩ := Prod.mk.injEq .. ▸ h1
      simp [lookupA]
    · have hk : k' ≠ k := by
        rintro rfl
        exact hnd.1 (List.mem_map_of_mem Prod.fst h1)
      simp only [lookupA, if_neg hk]
      exact ih hnd.2 h1

theorem lookupA_setA_self (l : List (String × α)) (k : String) (v : α) :
    lookupA (setA l k v) k = some v := by
  induction l with
  | nil => simp [setA, lookupA]
  | cons hd tl ih =>
    obtain ⟨k', v'⟩ := hd
    by_cases hk : k' = k <;> simp [setA, lookupA, hk, ih]

theorem lookupA_setA_ne {k' k : String} (l : List (String × α)) (v : α)
    (h : k' ≠ k) : lookupA (setA l k v) k' = lookupA l k' := by
  induction l with
  | nil =>
    have : ¬ k = k' := fun hh => h hh.symm
    simp [setA, lookupA, this]
  | cons hd tl ih =>
    obtain ⟨k₀, v₀⟩ := hd
    by_cases hk : k₀ = k
    · subst hk
      have hne : ¬ k₀ = k' := fun hh => h hh.symm
      simp [setA, lookupA, hne]
    · simp [setA, lookupA, hk, ih]

theorem keysA_setA (l : List (String × α)) (k : String) (v : α) :
    keysA (setA l k v) =
      if k ∈ keysA l then keysA l else keysA l ++ [k] := by
  induction l with
  | nil => simp [setA]
  | cons hd tl ih =>
    obtain ⟨k', v'⟩ := hd
    by_cases hk : k' = k
    · subst hk
      simp [setA]
    · have hk' : ¬ k = k' := fun hh => hk hh.symm
      simp only [setA, if_neg hk, keysA_cons, ih]
      by_cases hm : k ∈ keysA tl
      · simp [hm, hk']
      · simp [hm, hk']

theorem setA_of_not_mem {l : List (String × α)} {k : String} (v : α)
    (h : k ∉ keysA l) : setA l k v = l ++ [(k, v)] := by
  induction l with
  | nil => simp [setA]
  | cons hd tl ih =>
    obtain ⟨k', v'⟩ := hd
    simp only [keysA_cons, List.mem_cons] at h
    push_neg at h
    have : ¬ k' = k := fun hh => h.1 hh.symm
    simp [setA, this, ih h.2]

theorem getVal_setA_self (l : Fields) (k : String) (v : Value) :
    getVal (setA l k v) k = v := by
  simp [getVal, lookupA_setA_self]

theorem getVal_setA_ne {k' k : String} (l : Fields) (v : Value)
    (h : k' ≠ k) : getVal (setA l k v) k' = getVal l k' := by
  simp [getVal, lookupA_setA_ne _ _ h]

theorem hasKey_iff_mem_keysA {l : List (String × α)} {k : String} :
    hasKey l k = true ↔ k ∈ keysA l := by
  simp [hasKey, lookupA_isSome_iff]

theorem mem_keysA_of_mem {l : List (String × α)} {k : String} {v : α}
    (h : (k, v) ∈ l) : k ∈ keysA l :=
  List.mem_map_of_mem Prod.fst h

end AssocLemmas

/-! ### Characterizing the structural projection pass -/

/-- Keys not present in the input are untouched by the field loop. -/
theorem applyProjectionsLoop_lookupA_not_mem {t : ProjectionNode}
    {input : Fields} {k : String} (out : Fields) (h : k ∉ keysA input) :
    lookupA (applyProjectionsLoop t input out) k = lookupA out k := by
  induction input generalizing out with
  | nil => simp [applyProjectionsLoop]
  | cons hd rest ih =>
    obtain ⟨k₀, v₀⟩ := hd
    simp only [keysA_cons, List.mem_cons] at h
    push_neg at h
    have hne : k ≠ k₀ := h.1
    by_cases hm : k₀ ∈ t.projectedFields
    · simp only [applyProjectionsLoop, if_pos hm]
      rw [ih _ h.2, lookupA_setA_ne _ _ hne]
    · simp only [applyProjectionsLoop, if_neg hm]
      split
      · rw [ih _ h.2, lookupA_setA_ne _ _ hne]
      · exact ih _ h.2

/-- The slot produced by the field loop for a field present in the
input: leaf projection for plain projected names, recursive child
projection for child names, untouched otherwise. -/
theorem applyProjectionsLoop_lookupA_mem {t : ProjectionNode}
    {input : Fields} {k : String} {v : Value} (out : Fields)
    (hnd : (keysA input).Nodup) (hkv : (k, v) ∈ input) :
    lookupA (applyProjectionsLoop t input out) k =
      if k ∈ t.projectedFields then
        some (applyLeafProjectionToValue t.mode v)
      else
        match t.getChild k with
        | some c => some (applyProjectionsToValue c v)
        | none => lookupA out k := by
  induction input generalizing out with
  | nil => simp at hkv
  | cons hd rest ih =>
    obtain ⟨k₀, v₀⟩ := hd
    simp only [keysA_cons, List.nodup_cons] at hnd
    rcases List.mem_cons.mp hkv with h1 | h1
    · obtain ⟨rfl, rfl⟩ := Prod.mk.injEq .. ▸ h1
      have hout : k ∉ keysA rest := hnd.1
      by_cases hm : k ∈ t.projectedFields
      · rw [if_pos hm]
        simp only [applyProjectionsLoop, if_pos hm]
        rw [applyProjectionsLoop_lookupA_not_mem _ hout, lookupA_setA_self]
      · rw [if_neg hm]
        simp only [applyProjectionsLoop, if_neg hm]
        split
        · next c heq =>
          simp only [heq]
          rw [applyProjectionsLoop_lookupA_not_mem _ hout, lookupA_setA_self]
        · next heq =>
          simp only [heq]
          exact applyProjectionsLoop_lookupA_not_mem _ hout
    · have hk : k ≠ k₀ := by
        rintro rfl
        exact hnd.1 (mem_keysA_of_mem h1)
      have hfin : ∀ out' : Fields, lookupA out' k = lookupA out k →
          (if k ∈ t.projectedFields then
            some (applyLeafProjectionToValue t.mode v)
          else
            match t.getChild k with
            | some c => some (applyProjectionsToValue c v)
            | none => lookupA out' k) =
          (if k ∈ t.projectedFields then
            some (applyLeafProjectionToValue t.mode v)
          else
            match t.getChild k with
            | some c => some (applyProjectionsToValue c v)
            | none => lookupA out k) := by
        intro out' hpres
        by_cases hk2 : k ∈ t.projectedFields
        · rw [if_pos hk2, if_pos hk2]
        · rw [if_neg hk2, if_neg hk2]
          rcases hg : t.getChild k with _ | c <;> simp only [hg, hpres]
      by_cases hm : k₀ ∈ t.projectedFields
      · simp only [applyProjectionsLoop, if_pos hm]
        rw [ih _ hnd.2 h1]
        exact hfin _ (lookupA_setA_ne _ _ hk)
      · simp only [applyProjectionsLoop, if_neg hm]
        split
        · rw [ih _ hnd.2 h1]
          exact hfin _ (lookupA_setA_ne _ _ hk)
        · rw [ih _ hnd.2 h1]

/-- What the compensating block does to any slot. -/
theorem compLoop_lookupA (pfl : List String) (input out : Fields) (k : String) :
    lookupA (compLoop pfl input out) k =
      if k ∈ pfl ∧ (getVal input k).isMissing = true then some Value.missing
      else lookupA out k := by
  induction pfl generalizing out with
  | nil => simp [compLoop]
  | cons n rest ih =>
    by_cases hn : n = k
    · subst hn
      by_cases hm : (getVal input n).isMissing = true
      · simp only [compLoop, if_pos hm, ih]
        by_cases hr : n ∈ rest ∧ (getVal input n).isMissing = true
        · rw [if_pos hr, if_pos ⟨List.mem_cons_self _ _, hm⟩]
        · rw [if_neg hr, if_pos ⟨List.mem_cons_self _ _, hm⟩, lookupA_setA_self]
      · simp only [compLoop, if_neg hm, ih]
        have h2 : ¬ (n ∈ rest ∧ (getVal input n).isMissing = true) :=
          fun hc => hm hc.2
        have h3 : ¬ (n ∈ n :: rest ∧ (getVal input n).isMissing = true) :=
          fun hc => hm hc.2
        rw [if_neg h2, if_neg h3]
    · have hcond : (k ∈ n :: rest ∧ (getVal input k).isMissing = true) ↔
          (k ∈ rest ∧ (getVal input k).isMissing = true) := by
        constructor
        · rintro ⟨hk, hmm⟩
          rcases List.mem_cons.mp hk with h | h
          · exact absurd h.symm hn
          · exact ⟨h, hmm⟩
        · rintro ⟨hk, hmm⟩
          exact ⟨List.mem_cons_of_mem _ hk, hmm⟩
      by_cases hm : (getVal input n).isMissing = true
      · simp only [compLoop, if_pos hm, ih]
        rw [lookupA_setA_ne _ _ (fun hh => hn hh.symm)]
        by_cases hr : k ∈ rest ∧ (getVal input k).isMissing = true
        · rw [if_pos hr, if_pos (hcond.mpr hr)]
        · rw [if_neg hr, if_neg (fun hc => hr (hcond.mp hc))]
      · simp only [compLoop, if_neg hm, ih]
        by_cases hr : k ∈ rest ∧ (getVal input k).isMissing = true
        · rw [if_pos hr, if_pos (hcond.mpr hr)]
        · rw [if_neg hr, if_neg (fun hc => hr (hcond.mp hc))]

/-- The mode probe guarding the compensating block: it fires exactly in
Exclusion mode. -/
theorem probe_eq_exclusion (m : Mode) :
    (applyLeafProjectionToValue m (.boolV true)).isMissing =
      decide (m = Mode.exclusion) := by
  cases m <;> rfl

/-- Full structural pass, slot of a plain projected name present in the
input: always the leaf projection of its value (the compensating block
can only rewrite it to the same result). -/
theorem applyProjections_slot_plain {t : ProjectionNode} {input : Fields}
    {k : String} {v : Value} (out : Fields)
    (hnd : (keysA input).Nodup) (hkv : (k, v) ∈ input)
    (hm : k ∈ t.projectedFields) :
    getVal (applyProjections t input out) k =
      applyLeafProjectionToValue t.mode v := by
  have hv : getVal input k = v := by
    simp [getVal, lookupA_of_mem hnd hkv]
  have hloop : lookupA (applyProjectionsLoop t input out) k =
      some (applyLeafProjectionToValue t.mode v) := by
    rw [applyProjectionsLoop_lookupA_mem _ hnd hkv, if_pos hm]
  simp only [applyProjections]
  by_cases hp : (applyLeafProjectionToValue t.mode (.boolV true)).isMissing = true
  · have hmode : t.mode = Mode.exclusion := by
      have hpe := probe_eq_exclusion t.mode
      rw [hp] at hpe
      exact of_decide_eq_true hpe.symm
    rw [if_pos hp]
    by_cases hc : k ∈ t.projectedFields ∧ (getVal input k).isMissing = true
    · rw [getVal, compLoop_lookupA, if_pos hc]
      rw [hmode]
      rfl
    · rw [getVal, compLoop_lookupA, if_neg hc, hloop]
      rfl
  · rw [if_neg hp, getVal, hloop]
    rfl

/-- Full structural pass, slot of a non-plain name with a child node:
the child's recursive projection of the input value. -/
theorem applyProjections_slot_child {t : ProjectionNode} {input : Fields}
    {k : String} {v : Value} {c : ProjectionNode} (out : Fields)
    (hnd : (keysA input).Nodup) (hkv : (k, v) ∈ input)
    (hm : k ∉ t.projectedFields) (hg : t.getChild k = some c) :
    getVal (applyProjections t input out) k = applyProjectionsToValue c v := by
  have hloop : lookupA (applyProjectionsLoop t input out) k =
      some (applyProjectionsToValue c v) := by
    rw [applyProjectionsLoop_lookupA_mem _ hnd hkv, if_neg hm]
    simp only [hg]
  simp only [applyProjections]
  by_cases hp : (applyLeafProjectionToValue t.mode (.boolV true)).isMissing = true
  · rw [if_pos hp]
    have hc : ¬ (k ∈ t.projectedFields ∧ (getVal input k).isMissing = true) :=
      fun hc => hm hc.1
    rw [getVal, compLoop_lookupA, if_neg hc, hloop]
    rfl
  · rw [if_neg hp, getVal, hloop]
    rfl

/-- Full structural pass, slot of a name that is neither plainly
projected nor a child: left exactly as the seed produced it. -/
theorem applyProjections_slot_other {t : ProjectionNode} {input : Fields}
    {k : String} {v : Value} (out : Fields)
    (hnd : (keysA input).Nodup) (hkv : (k, v) ∈ input)
    (hm : k ∉ t.projectedFields) (hg : t.getChild k = none) :
    getVal (applyProjections t input out) k = getVal out k := by
  have hloop : lookupA (applyProjectionsLoop t input out) k = lookupA out k := by
    rw [applyProjectionsLoop_lookupA_mem _ hnd hkv, if_neg hm]
    simp only [hg]
  simp only [applyProjections]
  by_cases hp : (applyLeafProjectionToValue t.mode (.boolV true)).isMissing = true
  · rw [if_pos hp]
    have hc : ¬ (k ∈ t.projectedFields ∧ (getVal input k).isMissing = true) :=
      fun hc => hm hc.1
    rw [getVal, compLoop_lookupA, if_neg hc, hloop]
    rfl
  · rw [if_neg hp, getVal, hloop]
    rfl

/-- A name is handled by the field loop iff it is plainly projected or
names a child. -/
def handledB (t : ProjectionNode) (n : String) : Bool :=
  decide (n ∈ t.projectedFields) || (t.getChild n).isSome

/-- Output keys of the field loop: the seeded keys followed by the
handled input keys not already present, in input order. -/
theorem applyProjectionsLoop_keysA {t : ProjectionNode} {input : Fields}
    (out : Fields) (hnd : (keysA input).Nodup) :
    keysA (applyProjectionsLoop t input out) =
      keysA out ++
        (keysA input).filter (fun n => handledB t n && !(hasKey out n)) := by
  induction input generalizing out with
  | nil => simp [applyProjectionsLoop]
  | cons hd rest ih =>
    obtain ⟨k₀, v₀⟩ := hd
    simp only [keysA_cons, List.nodup_cons] at hnd
    have hcont : handledB t k₀ = true → ∀ w : Value,
        keysA (applyProjectionsLoop t rest (setA out k₀ w)) =
          keysA out ++
            (k₀ :: keysA rest).filter (fun n => handledB t n && !(hasKey out n)) := by
      intro hh w
      rw [ih _ hnd.2]
      have hfc : (keysA rest).filter
            (fun n => handledB t n && !(hasKey (setA out k₀ w) n)) =
          (keysA rest).filter (fun n => handledB t n && !(hasKey out n)) := by
        refine List.filter_congr fun n hn => ?_
        have hne : n ≠ k₀ := by
          rintro rfl
          exact hnd.1 hn
        rw [hasKey, hasKey, lookupA_setA_ne _ _ hne]
      rw [hfc, keysA_setA]
      by_cases ho : k₀ ∈ keysA out
      · have hhk : hasKey out k₀ = true := hasKey_iff_mem_keysA.mpr ho
        rw [if_pos ho, List.filter_cons]
        simp [hhk]
      · have hhk : hasKey out k₀ = false := by
          cases hb : hasKey out k₀
          · rfl
          · exact absurd (hasKey_iff_mem_keysA.mp hb) ho
        rw [if_neg ho, List.filter_cons]
        simp [hhk, hh, List.append_assoc]
    by_cases hm : k₀ ∈ t.projectedFields
    · have hh : handledB t k₀ = true := by
        simp [handledB, hm]
      simp only [applyProjectionsLoop, if_pos hm, keysA_cons]
      exact hcont hh _
    · simp only [applyProjectionsLoop, if_neg hm, keysA_cons]
      split
      · next c heq =>
        have hh : handledB t k₀ = true := by
          simp [handledB, heq]
        exact hcont hh _
      · next heq =>
        have hh : handledB t k₀ = false := by
          simp [handledB, hm, heq]
        rw [ih _ hnd.2, List.filter_cons]
        simp [hh]

/-- Output keys of the compensating block: the keys so far followed by
the projected names that are missing in the input and not yet present. -/
theorem compLoop_keysA {pfl : List String} (input out : Fields)
    (hnd : pfl.Nodup) :
    keysA (compLoop pfl input out) =
      keysA out ++
        pfl.filter (fun n => (getVal input n).isMissing && !(hasKey out n)) := by
  induction pfl generalizing out with
  | nil => simp [compLoop]
  | cons n rest ih =>
    simp only [List.nodup_cons] at hnd
    by_cases hm : (getVal input n).isMissing = true
    · simp only [compLoop, if_pos hm]
      rw [ih _ hnd.2]
      have hfc : rest.filter
            (fun x => (getVal input x).isMissing && !(hasKey (setA out n .missing) x)) =
          rest.filter (fun x => (getVal input x).isMissing && !(hasKey out x)) := by
        refine List.filter_congr fun x hx => ?_
        have hne : x ≠ n := by
          rintro rfl
          exact hnd.1 hx
        rw [hasKey, hasKey, lookupA_setA_ne _ _ hne]
      rw [hfc, keysA_setA]
      by_cases ho : n ∈ keysA out
      · have hhk : hasKey out n = true := hasKey_iff_mem_keysA.mpr ho
        rw [if_pos ho, List.filter_cons]
        simp [hhk]
      · have hhk : hasKey out n = false := by
          cases hb : hasKey out n
          · rfl
          · exact absurd (hasKey_iff_mem_keysA.mp hb) ho
        rw [if_neg ho, List.filter_cons]
        simp [hhk, hm, List.append_assoc]
    · have hmf : (getVal input n).isMissing = false := by
        cases hb : (getVal input n).isMissing
        · rfl
        · exact absurd hb hm
      simp only [compLoop, if_neg hm]
      rw [ih _ hnd.2, List.filter_cons]
      simp [hmf]

theorem hasKey_eq_decide {α : Type} (l : List (String × α)) (n : String) :
    hasKey l n = decide (n ∈ keysA l) := by
  cases hb : hasKey l n
  · have : n ∉ keysA l := fun hmem =>
      by rw [hasKey_iff_mem_keysA.mpr hmem] at hb; cases hb
    simp [this]
  · simp [hasKey_iff_mem_keysA.mp hb]

/-- Plain-projected fields present in the input keep their relative
input order in the output of the structural pass. -/
theorem applyProjections_order (t : ProjectionNode) (input : Fields)
    (hnd : (keysA input).Nodup) (hpf : t.projectedFields.Nodup) :
    (keysA (applyProjections t input (initializeOutputDocument t.mode input))).filter
        (fun n => decide (n ∈ t.projectedFields) && hasKey input n) =
      (keysA input).filter (fun n => decide (n ∈ t.projectedFields)) := by
  rcases hmode : t.mode with _ | _
  · -- Inclusion: no compensating block, seed empty.
    simp only [applyProjections, hmode, initializeOutputDocument]
    rw [if_neg (by decide :
      ¬ ((applyLeafProjectionToValue Mode.inclusion (Value.boolV true)).isMissing = true))]
    rw [applyProjectionsLoop_keysA _ hnd]
    simp only [keysA_nil, List.nil_append]
    rw [List.filter_filter]
    refine List.filter_congr fun n hn => ?_
    have hhk : hasKey input n = true := hasKey_iff_mem_keysA.mpr hn
    have hke : hasKey ([] : Fields) n = false := rfl
    rw [hhk, hke]
    simp only [Bool.not_false, Bool.and_true]
    by_cases hd : n ∈ t.projectedFields
    · simp [handledB, hd]
    · simp [hd]
  · -- Exclusion: seed is the input, then the compensating block runs.
    simp only [applyProjections, hmode, initializeOutputDocument]
    rw [if_pos (by decide :
      (applyLeafProjectionToValue Mode.exclusion (Value.boolV true)).isMissing = true)]
    have hloopkeys : keysA (applyProjectionsLoop t input input) = keysA input := by
      rw [applyProjectionsLoop_keysA _ hnd]
      have : (keysA input).filter (fun n => handledB t n && !(hasKey input n)) = [] := by
        rw [show (fun n => handledB t n && !(hasKey input n)) =
            fun n => (handledB t n && !(hasKey input n)) from rfl]
        have h0 : ∀ n ∈ keysA input, (handledB t n && !(hasKey input n)) = false := by
          intro n hn
          rw [hasKey_iff_mem_keysA.mpr hn]
          simp
        calc (keysA input).filter (fun n => handledB t n && !(hasKey input n))
            = (keysA input).filter (fun _ => false) := List.filter_congr h0
          _ = [] := by simp
      rw [this, List.append_nil]
    rw [compLoop_keysA _ _ hpf]
    rw [List.filter_append, hloopkeys]
    have hsecond :
        (t.projectedFields.filter
            (fun n => (getVal input n).isMissing &&
              !(hasKey (applyProjectionsLoop t input input) n))).filter
          (fun n => decide (n ∈ t.projectedFields) && hasKey input n) = [] := by
      rw [List.filter_filter]
      have h0 : ∀ n ∈ t.projectedFields,
          ((decide (n ∈ t.projectedFields) && hasKey input n) &&
            ((getVal input n).isMissing &&
              !(hasKey (applyProjectionsLoop t input input) n))) = false := by
        intro n _
        rw [hasKey_eq_decide (applyProjectionsLoop t input input) n, hloopkeys,
          ← hasKey_eq_decide input n]
        cases hasKey input n <;> simp
      calc t.projectedFields.filter _
          = t.projectedFields.filter (fun _ => false) := List.filter_congr h0
        _ = [] := by simp
    rw [hsecond, List.append_nil]
    refine List.filter_congr fun n hn => ?_
    rw [hasKey_iff_mem_keysA.mpr hn]
    simp

/-! ### Claim C1: the structural projection pass -/

/-- C1: for every projection tree and input document, the structural
pass visits input fields in order and, per field name, writes the leaf
projection when the name is plainly projected, the child's recursive
projection when a child node exists, and otherwise leaves the slot as
the seed produced it; consequently plain-projected fields present in
the input retain their relative input order in the output. -/
theorem claim1_structural_pass (t : ProjectionNode) (input : Fields)
    (hnd : (keysA input).Nodup) (hpf : t.projectedFields.Nodup) :
    (∀ k v, (k, v) ∈ input → k ∈ t.projectedFields →
      getVal (applyProjections t input (initializeOutputDocument t.mode input)) k =
        applyLeafProjectionToValue t.mode v) ∧
    (∀ k v c, (k, v) ∈ input → k ∉ t.projectedFields → t.getChild k = some c →
      getVal (applyProjections t input (initializeOutputDocument t.mode input)) k =
        applyProjectionsToValue c v) ∧
    (∀ k v, (k, v) ∈ input → k ∉ t.projectedFields → t.getChild k = none →
      getVal (applyProjections t input (initializeOutputDocument t.mode input)) k =
        getVal (initializeOutputDocument t.mode input) k) ∧
    (keysA (applyProjections t input (initializeOutputDocument t.mode input))).filter
        (fun n => decide (n ∈ t.projectedFields) && hasKey input n) =
      (keysA input).filter (fun n => decide (n ∈ t.projectedFields)) := by
  refine ⟨?_, ?_, ?_, ?_⟩
  · intro k v hkv hm
    exact applyProjections_slot_plain _ hnd hkv hm
  · intro k v c hkv hm hg
    exact applyProjections_slot_child _ hnd hkv hm hg
  · intro k v hkv hm hg
    exact applyProjections_slot_other _ hnd hkv hm hg
  · exact applyProjections_order t input hnd hpf

/-- Witness for C1 at the exclusion tree `{secret: 0}` applied to
`{a: 1, secret: 2, b: 3}`. -/
theorem claim1_structural_pass_witness :
    getVal (applyProjections exTreeSecret exDocASB.fields
        (initializeOutputDocument exTreeSecret.mode exDocASB.fields)) "secret" =
      applyLeafProjectionToValue exTreeSecret.mode (.intV 2) ∧
    (keysA (applyProjections exTreeSecret exDocASB.fields
        (initializeOutputDocument exTreeSecret.mode exDocASB.fields))).filter
        (fun n => decide (n ∈ exTreeSecret.projectedFields) && hasKey exDocASB.fields n) =
      (keysA exDocASB.fields).filter
        (fun n => decide (n ∈ exTreeSecret.projectedFields)) := by
  have h := claim1_structural_pass exTreeSecret exDocASB.fields
    (by decide) (by decide)
  exact ⟨h.1 "secret" (.intV 2)
    (List.mem_cons_of_mem _ (List.mem_cons_self _ _)) (by decide), h.2.2.2⟩

/-! ### Claim C3: compensation for absent projected fields -/

/-- C3: a name in `projectedFields` absent from the input is forced to an
explicitly missing output slot by the structural pass exactly when the
mode's leaf projection of a true sentinel is itself missing — that is,
only in Exclusion mode; in Inclusion mode the absent name is not
materialized at all. -/
theorem claim3_absent_projected_fields (t : ProjectionNode) (input : Fields)
    (n : String) (hn : n ∈ t.projectedFields) (habs : n ∉ keysA input) :
    ((applyLeafProjectionToValue Mode.exclusion (.boolV true)).isMissing = true ∧
      (applyLeafProjectionToValue Mode.inclusion (.boolV true)).isMissing = false) ∧
    (t.mode = Mode.exclusion →
      hasKey (applyProjections t input (initializeOutputDocument t.mode input)) n = true ∧
      getVal (applyProjections t input (initializeOutputDocument t.mode input)) n =
        .missing) ∧
    (t.mode = Mode.inclusion →
      hasKey (applyProjections t input (initializeOutputDocument t.mode input)) n =
        false) := by
  have hmissing : (getVal input n).isMissing = true := by
    rw [getVal, lookupA_eq_none.mpr habs]
    rfl
  refine ⟨⟨rfl, rfl⟩, ?_, ?_⟩
  · intro hmode
    simp only [applyProjections, hmode, initializeOutputDocument]
    rw [if_pos (by decide :
      (applyLeafProjectionToValue Mode.exclusion (Value.boolV true)).isMissing = true)]
    constructor
    · rw [hasKey, compLoop_lookupA, if_pos ⟨hn, hmissing⟩]
      rfl
    · rw [getVal, compLoop_lookupA, if_pos ⟨hn, hmissing⟩]
      rfl
  · intro hmode
    simp only [applyProjections, hmode, initializeOutputDocument]
    rw [if_neg (by decide :
      ¬ ((applyLeafProjectionToValue Mode.inclusion (Value.boolV true)).isMissing = true))]
    rw [hasKey, applyProjectionsLoop_lookupA_not_mem _ habs]
    rfl

/-- Witness for C3: `exTreeSecret` (Exclusion, `secret` projected)
against a document without `secret`. -/
theorem claim3_absent_projected_fields_witness :
    hasKey (applyProjections exTreeSecret exDocAB.fields
        (initializeOutputDocument exTreeSecret.mode exDocAB.fields)) "secret" = true ∧
    getVal (applyProjections exTreeSecret exDocAB.fields
        (initializeOutputDocument exTreeSecret.mode exDocAB.fields)) "secret" =
      .missing := by
  have h := claim3_absent_projected_fields exTreeSecret exDocAB.fields "secret"
    (by decide) (by decide)
  exact h.2.1 (by decide)

/-! ### Claim C8: metadata pass-through -/

/-- C8: apply-to-document copies the input's metadata side-channel onto
the output verbatim, unconditionally. -/
theorem claim8_metadata_copied (t : ProjectionNode) (d : Document) :
    (applyToDocument t d).md = d.md := rfl

/-! ### Claim C10: plain projection takes precedence over the child -/

/-- C10: on the tree built by adding `a.b` and then `a`, the name `a` is
both plainly projected and a child; for any input document holding a
field, the structural pass writes the leaf projection of its value
whenever the name is plainly projected — the `projectedFields` test wins
and the child's recursive projection (which here would yield `missing`)
is not consulted. -/
theorem claim10_plain_wins_over_child :
    ("a" ∈ exTreeOverlap.projectedFields ∧
      exTreeOverlap.getChild "a" = some exTreeOverlapChild) ∧
    applyProjectionsToValue exTreeOverlapChild (.intV 5) = .missing ∧
    getVal (applyProjections exTreeOverlap [("a", .intV 5)]
        (initializeOutputDocument exTreeOverlap.mode [("a", .intV 5)])) "a" =
      .intV 5 ∧
    (∀ (t : ProjectionNode) (input : Fields) (k : String) (v : Value),
      (keysA input).Nodup → (k, v) ∈ input → k ∈ t.projectedFields →
      getVal (applyProjections t input (initializeOutputDocument t.mode input)) k =
        applyLeafProjectionToValue t.mode v) := by
  refine ⟨⟨by decide, rfl⟩, ?_, ?_, ?_⟩
  · simp [applyProjectionsToValue, transformSkippedValueForOutput,
      ProjectionNode.mode, exTreeOverlapChild]
  · have h := @applyProjections_slot_plain exTreeOverlap [("a", .intV 5)]
      "a" (.intV 5) (initializeOutputDocument exTreeOverlap.mode [("a", .intV 5)])
      (by decide) (List.mem_cons_self _ _) (by decide)
    rw [h]
    rfl
  · intro t input k v hnd hkv hm
    exact applyProjections_slot_plain _ hnd hkv hm

/-- Witness for C10's universally quantified part, at the overlap tree. -/
theorem claim10_plain_wins_over_child_witness :
    getVal (applyProjections exTreeOverlap [("a", .intV 5)]
        (initializeOutputDocument exTreeOverlap.mode [("a", .intV 5)])) "a" =
      applyLeafProjectionToValue exTreeOverlap.mode (.intV 5) :=
  claim10_plain_wins_over_child.2.2.2 exTreeOverlap [("a", .intV 5)] "a" (.intV 5)
    (by decide) (List.mem_cons_self _ _) (by decide)

/-! ### Claim C4: the nested-array recursion policy -/

/-- With nested-array recursion disallowed, the element loop applies the
skipped-value transform to array elements and recurses into the rest. -/
theorem applyProjectionsToList_noRecurse {t : ProjectionNode}
    (h : t.policies.arrayRecursionPolicy =
      ArrayRecursionPolicy.kDoNotRecurseNestedArrays)
    (elems : List Value) :
    applyProjectionsToList t elems = elems.map fun e =>
      if e.isArray = true then transformSkippedValueForOutput t.mode e
      else applyProjectionsToValue t e := by
  induction elems with
  | nil => simp [applyProjectionsToList]
  | cons v rest ih =>
    simp only [applyProjectionsToList, List.map_cons, ih]
    by_cases hv : v.isArray = true
    · simp [hv, h]
    · simp [hv, h]

/-- With nested-array recursion allowed, the element loop recurses into
every element, arrays included. -/
theorem applyProjectionsToList_recurse {t : ProjectionNode}
    (h : t.policies.arrayRecursionPolicy =
      ArrayRecursionPolicy.kRecurseNestedArrays)
    (elems : List Value) :
    applyProjectionsToList t elems =
      elems.map fun e => applyProjectionsToValue t e := by
  induction elems with
  | nil => simp [applyProjectionsToList]
  | cons v rest ih =>
    simp only [applyProjectionsToList, List.map_cons, ih]
    simp [h]

/-- C4: the recursive structural projection maps itself over every array
element — with the recurse-nested-arrays policy an element that is itself
an array is recursed into like any other element, while with the
no-nested-recursion policy it goes through the mode's skipped-value
transform as a whole instead of being recursed into; in particular
excluding `a.b` over `{a: [[{b: 1}]]}` leaves the nested array
untouched. -/
theorem claim4_array_recursion_policy :
    (∀ (t : ProjectionNode) (elems : List Value),
      t.policies.arrayRecursionPolicy =
          ArrayRecursionPolicy.kDoNotRecurseNestedArrays →
      applyProjectionsToValue t (.arrV elems) =
        .arrV (elems.map fun e =>
          if e.isArray = true then transformSkippedValueForOutput t.mode e
          else applyProjectionsToValue t e)) ∧
    (∀ (t : ProjectionNode) (elems : List Value),
      t.policies.arrayRecursionPolicy =
          ArrayRecursionPolicy.kRecurseNestedArrays →
      applyProjectionsToValue t (.arrV elems) =
        .arrV (elems.map fun e => applyProjectionsToValue t e)) ∧
    applyToDocument exTreeAB exDocNested = exDocNested := by
  refine ⟨?_, ?_, ?_⟩
  · intro t elems h
    simp only [applyProjectionsToValue]
    rw [applyProjectionsToList_noRecurse h]
  · intro t elems h
    simp only [applyProjectionsToValue]
    rw [applyProjectionsToList_recurse h]
  · simp [applyToDocument, exTreeAB, exDocNested, polNoRecurse, emptyRoot,
      addProjectionForPathT, applyProjections, applyProjectionsLoop,
      applyProjectionsToValue, applyProjectionsToList, compLoop,
      applyExpressionsLoop, applyExpressionsToValue, applyExpressionsToList,
      initializeOutputDocument, applyLeafProjectionToValue,
      transformSkippedValueForOutput, subtreeContainsComputedFields,
      anyChildComputed, ProjectionNode.mode, ProjectionNode.policies,
      ProjectionNode.projectedFields, ProjectionNode.expressions,
      ProjectionNode.children, ProjectionNode.order, ProjectionNode.getChild,
      getFullyQualifiedPath, lookupA, setA, getVal, hasKey, Value.isMissing,
      Value.isArray, Expression.evaluate]

/-- Witness for C4's universally quantified parts: the no-recursion
policy at the `a.b` exclusion tree, and the recurse policy at the
`secret` exclusion tree. -/
theorem claim4_array_recursion_policy_witness :
    (applyProjectionsToValue exTreeAB
        (.arrV [.arrV [.docV [("b", .intV 1)]], .intV 9]) =
      .arrV ([.arrV [.docV [("b", .intV 1)]], .intV 9].map fun e =>
        if e.isArray = true then transformSkippedValueForOutput exTreeAB.mode e
        else applyProjectionsToValue exTreeAB e)) ∧
    (applyProjectionsToValue exTreeSecret (.arrV [.arrV [.intV 2], .intV 9]) =
      .arrV ([.arrV [.intV 2], .intV 9].map fun e =>
        applyProjectionsToValue exTreeSecret e)) :=
  ⟨claim4_array_recursion_policy.1 exTreeAB
    [.arrV [.docV [("b", .intV 1)]], .intV 9] (by decide),
   claim4_array_recursion_policy.2.1 exTreeSecret
    [.arrV [.intV 2], .intV 9] (by decide)⟩

/-! ### Claim C2: the expression overlay pass -/

/-- C2: the overlay pass walks the declared order over the output built
so far: a child slot recurses with the unchanged top-level root, an
expression slot is overwritten with the expression evaluated against
that root; a scalar-or-missing slot under a child is replaced by a
brand-new document built from the subtree's expressions exactly when the
subtree contains any expression (checked transitively on each call), and
is otherwise passed through the skipped-value transform.  In particular
the Exclusion tree carrying only the expression `7` at `a.x`, applied to
`{a: 5}`, yields `{a: {x: 7}}`. -/
theorem claim2_expression_overlay :
    (∀ (t : ProjectionNode) (root : Document) (v : Value), v.isLeaf = true →
      applyExpressionsToValue root t v =
        if subtreeContainsComputedFields t then
          .docV (applyExpressionsLoop root t t.order [])
        else transformSkippedValueForOutput t.mode v) ∧
    (∀ (t : ProjectionNode) (root : Document) (f : String) (rest : List String)
        (out : Fields) (c : ProjectionNode),
      t.getChild f = some c →
      applyExpressionsLoop root t (f :: rest) out =
        applyExpressionsLoop root t rest
          (setA out f (applyExpressionsToValue root c (getVal out f)))) ∧
    (∀ (t : ProjectionNode) (root : Document) (f : String) (rest : List String)
        (out : Fields) (e : Expression),
      t.getChild f = none → lookupA t.expressions f = some e →
      applyExpressionsLoop root t (f :: rest) out =
        applyExpressionsLoop root t rest (setA out f (e.evaluate root))) ∧
    applyToDocument exTreeAX exDocA5 =
      ⟨[("a", .docV [("x", .intV 7)])], 3⟩ := by
  refine ⟨?_, ?_, ?_, ?_⟩
  · intro t root v hv
    cases v with
    | docV fields => simp [Value.isLeaf] at hv
    | arrV elems => simp [Value.isLeaf] at hv
    | missing => simp [applyExpressionsToValue]
    | intV n => simp [applyExpressionsToValue]
    | boolV b => simp [applyExpressionsToValue]
    | strV s => simp [applyExpressionsToValue]
  · intro t root f rest out c hg
    simp only [applyExpressionsLoop]
    split
    · next c' heq =>
      rw [hg] at heq
      obtain rfl := Option.some.injEq .. ▸ heq
      rfl
    · next heq =>
      rw [hg] at heq
      cases heq
  · intro t root f rest out e hg he
    simp only [applyExpressionsLoop]
    split
    · next c' heq =>
      rw [hg] at heq
      cases heq
    · next heq =>
      simp only [he]
  · simp [applyToDocument, exTreeAX, exDocA5, polAllow, emptyRoot,
      addExpressionForPathT, applyProjections, applyProjectionsLoop,
      applyProjectionsToValue, applyProjectionsToList, compLoop,
      applyExpressionsLoop, applyExpressionsToValue, applyExpressionsToList,
      initializeOutputDocument, applyLeafProjectionToValue,
      transformSkippedValueForOutput, subtreeContainsComputedFields,
      anyChildComputed, ProjectionNode.mode, ProjectionNode.policies,
      ProjectionNode.projectedFields, ProjectionNode.expressions,
      ProjectionNode.children, ProjectionNode.order, ProjectionNode.getChild,
      getFullyQualifiedPath, lookupA, setA, getVal, hasKey, Value.isMissing,
      Value.isArray, Expression.evaluate]

/-- Witness for C2's hypotheses, at the `a.x` tree and the scalar `5`. -/
theorem claim2_expression_overlay_witness :
    applyExpressionsToValue exDocA5 exTreeAX (.intV 5) =
      if subtreeContainsComputedFields exTreeAX then
        .docV (applyExpressionsLoop exDocA5 exTreeAX exTreeAX.order [])
      else transformSkippedValueForOutput exTreeAX.mode (.intV 5) :=
  claim2_expression_overlay.1 exTreeAX exDocA5 (.intV 5) rfl

/-! ### Claim C5: serialization shape -/

theorem lookupA_append_left {α : Type} {l₁ : List (String × α)} {k : String}
    {v : α} (l₂ : List (String × α)) (h : lookupA l₁ k = some v) :
    lookupA (l₁ ++ l₂) k = some v := by
  induction l₁ with
  | nil => simp [lookupA] at h
  | cons hd tl ih =>
    obtain ⟨k', v'⟩ := hd
    by_cases hk : k' = k
    · simp only [lookupA, if_pos hk] at h ⊢
      exact h
    · simp only [lookupA, if_neg hk] at h ⊢
      exact ih h

theorem lookupA_append_right {α : Type} {l₁ : List (String × α)} {k : String}
    (l₂ : List (String × α)) (h : lookupA l₁ k = none) :
    lookupA (l₁ ++ l₂) k = lookupA l₂ k := by
  induction l₁ with
  | nil => simp
  | cons hd tl ih =>
    obtain ⟨k', v'⟩ := hd
    by_cases hk : k' = k
    · simp only [lookupA, if_pos hk] at h
      cases h
    · simp only [lookupA, if_neg hk] at h ⊢
      exact ih h

theorem lookupA_map_pair {l : List String} {k : String} (f : String → Value) :
    lookupA (l.map fun n => (n, f n)) k =
      if k ∈ l then some (f k) else none := by
  induction l with
  | nil => simp [lookupA]
  | cons n rest ih =>
    by_cases hk : n = k
    · subst hk
      simp [lookupA]
    · have hk' : ¬ k = n := fun hh => hk hh.symm
      simp [lookupA, hk, hk', ih]

theorem keysA_map_pair (l : List String) (f : String → Value) :
    keysA (l.map fun n => (n, f n)) = l := by
  induction l with
  | nil => rfl
  | cons n rest ih => simp [keysA] at ih ⊢; exact ih

/-- The declared-order loop serializes exactly the declared names, in
order, when each of them is a child or an expression. -/
theorem serializeOrder_keysA {t : ProjectionNode} {ord : List String}
    (explain : Bool)
    (h : ∀ n ∈ ord, (t.getChild n).isSome = true ∨
      (lookupA t.expressions n).isSome = true) :
    keysA (serializeOrder t ord explain) = ord := by
  induction ord with
  | nil => simp [serializeOrder]
  | cons f rest ih =>
    have h2 := ih (fun n hn => h n (List.mem_cons_of_mem _ hn))
    simp only [serializeOrder]
    rw [keysA_append]
    split
    · next c heq => simp [h2]
    · next heq =>
      rcases h f (List.mem_cons_self _ _) with hc | he
      · rw [heq] at hc
        simp at hc
      · rcases Option.isSome_iff_exists.mp he with ⟨e, he2⟩
        simp [he2, h2]

/-- Entries produced by the declared-order loop are named by declared
names only. -/
theorem serializeOrder_mem {t : ProjectionNode} {ord : List String}
    {explain : Bool} {n : String} {v : Value}
    (h : (n, v) ∈ serializeOrder t ord explain) : n ∈ ord := by
  induction ord with
  | nil => simp [serializeOrder] at h
  | cons f rest ih =>
    simp only [serializeOrder] at h
    rcases List.mem_append.mp h with h1 | h1
    · have hnf : n = f := by
        revert h1
        split
        · next c heq =>
          intro h1
          have h2 := List.mem_singleton.mp h1
          exact (Prod.mk.injEq .. ▸ h2).1
        · next heq =>
          split
          · next e heq2 =>
            intro h1
            have h2 := List.mem_singleton.mp h1
            exact (Prod.mk.injEq .. ▸ h2).1
          · next heq2 =>
            intro h1
            simp at h1
      rw [hnf]
      exact List.mem_cons_self _ _
    · exact List.mem_cons_of_mem _ (ih h1)

/-- C5: serialize puts `_id` first when plainly projected, then the
remaining plain fields in the set's stable order, then the declared
order; every plain field carries the node's single boolean — `true`
under Inclusion and `false` under Exclusion, never the other way. -/
theorem claim5_serialize_shape (t : ProjectionNode) (explain : Bool)
    (hord : ∀ n ∈ t.order, (t.getChild n).isSome = true ∨
      (lookupA t.expressions n).isSome = true)
    (hdisj : ∀ n, n ∈ t.projectedFields → n ∉ t.order) :
    ((!(applyLeafProjectionToValue t.mode (.boolV true)).isMissing) =
      decide (t.mode = Mode.inclusion)) ∧
    keysA (serializeNode t explain) =
      (if "_id" ∈ t.projectedFields then ["_id"] else []) ++
        t.projectedFields.filter (· ≠ "_id") ++ t.order ∧
    (∀ n, n ∈ t.projectedFields →
      lookupA (serializeNode t explain) n =
        some (.boolV (decide (t.mode = Mode.inclusion)))) ∧
    (∀ n v, (n, v) ∈ serializeNode t explain → n ∈ t.projectedFields →
      v = .boolV (decide (t.mode = Mode.inclusion))) := by
  have hpv : (!(applyLeafProjectionToValue t.mode (.boolV true)).isMissing) =
      decide (t.mode = Mode.inclusion) := by
    cases t.mode <;> rfl
  refine ⟨hpv, ?_, ?_, ?_⟩
  · simp only [serializeNode]
    rw [keysA_append, keysA_append, keysA_map_pair,
      serializeOrder_keysA explain hord]
    by_cases hid : "_id" ∈ t.projectedFields
    · rw [if_pos hid, if_pos hid]
      rfl
    · rw [if_neg hid, if_neg hid]
      rfl
  · intro n hn
    simp only [serializeNode, hpv]
    by_cases hid : n = "_id"
    · subst hid
      rw [if_pos hn]
      exact lookupA_append_left _ (lookupA_append_left _ rfl)
    · have hlk1 : lookupA
          (if "_id" ∈ t.projectedFields
            then [("_id", Value.boolV (decide (t.mode = Mode.inclusion)))]
            else []) n = none := by
        by_cases h2 : "_id" ∈ t.projectedFields
        · rw [if_pos h2]
          have hne : ¬ "_id" = n := fun hh => hid hh.symm
          simp [lookupA, hne]
        · rw [if_neg h2]
          rfl
      rw [List.append_assoc, lookupA_append_right _ hlk1]
      have hmem : n ∈ t.projectedFields.filter (· ≠ "_id") := by
        simp only [List.mem_filter]
        exact ⟨hn, by simp [hid]⟩
      exact lookupA_append_left _
        (by rw [lookupA_map_pair]; rw [if_pos hmem])
  · intro n v hmem hn
    simp only [serializeNode, hpv] at hmem
    rcases List.mem_append.mp hmem with h1 | h1
    · rcases List.mem_append.mp h1 with h2 | h2
      · by_cases hid : "_id" ∈ t.projectedFields
        · rw [if_pos hid] at h2
          rcases List.mem_singleton.mp h2 with h3
          exact (Prod.mk.injEq .. ▸ h3).2
        · rw [if_neg hid] at h2
          simp at h2
      · rcases List.mem_map.mp h2 with ⟨m, _, h3⟩
        exact ((Prod.mk.injEq .. ▸ h3.symm).2).symm ▸ rfl
    · exact absurd (serializeOrder_mem h1) (hdisj n hn)

/-- Witness for C5 at the `a.x` exclusion tree. -/
theorem claim5_serialize_shape_witness :
    keysA (serializeNode exTreeAX true) =
      (if "_id" ∈ exTreeAX.projectedFields then ["_id"] else []) ++
        exTreeAX.projectedFields.filter (· ≠ "_id") ++ exTreeAX.order :=
  (claim5_serialize_shape exTreeAX true (by decide) (by decide)).2.1

/-! ### Claim C7: optimize is idempotent and shape-preserving -/

/-- The modelled expression optimizer is idempotent (the expression
contract's constant folding reaches a fixed point in one pass). -/
theorem exprOptimize_idem (e : Expression) :
    e.optimize.optimize = e.optimize := by
  induction e with
  | const v => rfl
  | fieldRef n => rfl
  | add a b iha ihb =>
    simp only [Expression.optimize]
    cases haa : a.optimize with
    | const v =>
      cases hbb : b.optimize with
      | const w => rfl
      | fieldRef m => rfl
      | add b1 b2 =>
        rw [hbb] at ihb
        calc (Expression.add (.const v) (.add b1 b2)).optimize
            = match (Expression.const v).optimize,
                (Expression.add b1 b2).optimize with
              | .const x, .const y => Expression.const (addValues x y)
              | a', b' => Expression.add a' b' := rfl
          _ = Expression.add (.const v) (.add b1 b2) := by rw [ihb]; rfl
    | fieldRef n =>
      cases hbb : b.optimize with
      | const w => rfl
      | fieldRef m => rfl
      | add b1 b2 =>
        rw [hbb] at ihb
        calc (Expression.add (.fieldRef n) (.add b1 b2)).optimize
            = match (Expression.fieldRef n).optimize,
                (Expression.add b1 b2).optimize with
              | .const x, .const y => Expression.const (addValues x y)
              | a', b' => Expression.add a' b' := rfl
          _ = Expression.add (.fieldRef n) (.add b1 b2) := by rw [ihb]; rfl
    | add a1 a2 =>
      rw [haa] at iha
      cases hbb : b.optimize with
      | const w =>
        calc (Expression.add (.add a1 a2) (.const w)).optimize
            = match (Expression.add a1 a2).optimize,
                (Expression.const w).optimize with
              | .const x, .const y => Expression.const (addValues x y)
              | a', b' => Expression.add a' b' := rfl
          _ = Expression.add (.add a1 a2) (.const w) := by rw [iha]; rfl
      | fieldRef m =>
        calc (Expression.add (.add a1 a2) (.fieldRef m)).optimize
            = match (Expression.add a1 a2).optimize,
                (Expression.fieldRef m).optimize with
              | .const x, .const y => Expression.const (addValues x y)
              | a', b' => Expression.add a' b' := rfl
          _ = Expression.add (.add a1 a2) (.fieldRef m) := by rw [iha]; rfl
      | add b1 b2 =>
        rw [hbb] at ihb
        calc (Expression.add (.add a1 a2) (.add b1 b2)).optimize
            = match (Expression.add a1 a2).optimize,
                (Expression.add b1 b2).optimize with
              | .const x, .const y => Expression.const (addValues x y)
              | a', b' => Expression.add a' b' := rfl
          _ = Expression.add (.add a1 a2) (.add b1 b2) := by rw [iha, ihb]

mutual

theorem optimizeNode_idem (t : ProjectionNode) :
    optimizeNode (optimizeNode t) = optimizeNode t := by
  cases t with
  | node m p pa pf ex ch ord =>
    simp only [optimizeNode]
    rw [List.map_map]
    congr 1
    · refine List.map_congr_left fun pr _ => ?_
      simp [exprOptimize_idem]
    · exact optimizeChildren_idem ch
termination_by sizeOf t
decreasing_by
  simp only [ProjectionNode.node.sizeOf_spec]
  omega

theorem optimizeChildren_idem (l : List (String × ProjectionNode)) :
    optimizeChildren (optimizeChildren l) = optimizeChildren l := by
  cases l with
  | nil => simp [optimizeChildren]
  | cons hd rest =>
    obtain ⟨n, c⟩ := hd
    simp only [optimizeChildren]
    rw [optimizeNode_idem c, optimizeChildren_idem rest]
termination_by sizeOf l
decreasing_by
  all_goals simp only [List.cons.sizeOf_spec, Prod.mk.sizeOf_spec]
  all_goals omega

end

mutual

theorem eraseExprs_optimizeNode (t : ProjectionNode) :
    eraseExprs (optimizeNode t) = eraseExprs t := by
  cases t with
  | node m p pa pf ex ch ord =>
    simp only [optimizeNode, eraseExprs]
    rw [eraseExprsChildren_optimizeChildren ch]
termination_by sizeOf t
decreasing_by
  simp only [ProjectionNode.node.sizeOf_spec]
  omega

theorem eraseExprsChildren_optimizeChildren
    (l : List (String × ProjectionNode)) :
    eraseExprsChildren (optimizeChildren l) = eraseExprsChildren l := by
  cases l with
  | nil => simp [optimizeChildren, eraseExprsChildren]
  | cons hd rest =>
    obtain ⟨n, c⟩ := hd
    simp only [optimizeChildren, eraseExprsChildren]
    rw [eraseExprs_optimizeNode c, eraseExprsChildren_optimizeChildren rest]
termination_by sizeOf l
decreasing_by
  all_goals simp only [List.cons.sizeOf_spec, Prod.mk.sizeOf_spec]
  all_goals omega

end

theorem keysA_optimizeChildren (l : List (String × ProjectionNode)) :
    keysA (optimizeChildren l) = keysA l := by
  induction l with
  | nil => simp [optimizeChildren]
  | cons hd rest ih =>
    obtain ⟨n, c⟩ := hd
    simp only [optimizeChildren, keysA_cons, ih]

/-- C7: optimize is idempotent — running it twice is observationally the
same as running it once, judged by serialize output and apply-to-document
results (here the doubly and singly optimized trees are equal outright);
and optimize alters neither the tree shape nor the plain-field sets. -/
theorem claim7_optimize_idempotent (t : ProjectionNode) :
    (∀ explain, serializeNode (optimizeNode (optimizeNode t)) explain =
      serializeNode (optimizeNode t) explain) ∧
    (∀ d : Document, applyToDocument (optimizeNode (optimizeNode t)) d =
      applyToDocument (optimizeNode t) d) ∧
    eraseExprs (optimizeNode t) = eraseExprs t ∧
    (optimizeNode t).projectedFields = t.projectedFields ∧
    childNames (optimizeNode t) = childNames t := by
  have hidem := optimizeNode_idem t
  refine ⟨fun explain => by rw [hidem], fun d => by rw [hidem],
    eraseExprs_optimizeNode t, ?_, ?_⟩
  · cases t with
    | node m p pa pf ex ch ord =>
      simp [optimizeNode, ProjectionNode.projectedFields]
  · cases t with
    | node m p pa pf ex ch ord =>
      simp only [childNames, optimizeNode, ProjectionNode.children]
      exact keysA_optimizeChildren ch

/-! ### Claim C9: construction-time contract violations fail fast -/

theorem ChildrenAllow_lookup {l : List (String × ProjectionNode)}
    {f : String} {c : ProjectionNode} (hall : ChildrenAllow l)
    (h : lookupA l f = some c) : PoliciesAllow c := by
  induction l with
  | nil => simp [lookupA] at h
  | cons hd tl ih =>
    obtain ⟨k', c'⟩ := hd
    simp only [ChildrenAllow] at hall
    by_cases hk : k' = f
    · simp only [lookupA, if_pos hk, Option.some.injEq] at h
      exact h ▸ hall.1
    · simp only [lookupA, if_neg hk] at h
      exact ih hall.2 h

/-- `addExpressionForPath` succeeds on any path of separator-free
components when every node permits computed fields. -/
theorem addExpressionForPathE_ok (p : List String) :
    ∀ (t : ProjectionNode) (e : Expression), PoliciesAllow t →
      (∀ s ∈ p, containsDot s = false) →
      ∃ t', addExpressionForPathE t p e = .ok t' := by
  induction p with
  | nil =>
    intro t e hall _
    cases t with
    | node m pol pa pf ex ch ord =>
      simp only [PoliciesAllow, ProjectionNode.policies,
        ProjectionNode.children] at hall
      simp only [addExpressionForPathE]
      rw [if_neg (by simp [ProjectionNode.policies, hall.1])]
      exact ⟨_, rfl⟩
  | cons f rest ih =>
    intro t e hall hdots
    cases t with
    | node m pol pa pf ex ch ord =>
      have hpol := hall
      simp only [PoliciesAllow, ProjectionNode.policies,
        ProjectionNode.children] at hpol
      cases rest with
      | nil =>
        simp only [addExpressionForPathE]
        rw [if_neg (by simp [ProjectionNode.policies, hpol.1])]
        exact ⟨_, rfl⟩
      | cons g rest2 =>
        simp only [addExpressionForPathE]
        rw [if_neg (by simp [ProjectionNode.policies, hpol.1])]
        rcases hg : lookupA ch f with _ | c
        · have hdot : containsDot f = false := hdots f (List.mem_cons_self _ _)
          have hfresh : PoliciesAllow
              (.node m pol (getFullyQualifiedPath pa f) [] [] [] []) := by
            simp [PoliciesAllow, ChildrenAllow, ProjectionNode.policies,
              ProjectionNode.children, hpol.1]
          obtain ⟨c', hc'⟩ := ih
            (.node m pol (getFullyQualifiedPath pa f) [] [] [] []) e hfresh
            (fun s hs => hdots s (List.mem_cons_of_mem _ hs))
          simp only [hg, hdot]
          rw [if_neg (by simp)]
          rw [hc']
          exact ⟨_, rfl⟩
        · have hc : PoliciesAllow c := ChildrenAllow_lookup hpol.2 hg
          obtain ⟨c', hc'⟩ := ih c e hc
            (fun s hs => hdots s (List.mem_cons_of_mem _ hs))
          simp only [hg]
          rw [hc']
          exact ⟨_, rfl⟩

/-- `addProjectionForPath` succeeds on any path of separator-free
components. -/
theorem addProjectionForPathE_ok (p : List String) :
    ∀ t : ProjectionNode, (∀ s ∈ p, containsDot s = false) →
      ∃ t', addProjectionForPathE t p = .ok t' := by
  induction p with
  | nil =>
    intro t _
    exact ⟨t, by simp [addProjectionForPathE]⟩
  | cons f rest ih =>
    intro t hdots
    cases t with
    | node m pol pa pf ex ch ord =>
      cases rest with
      | nil =>
        exact ⟨.node m pol pa (if f ∈ pf then pf else pf ++ [f]) ex ch ord,
          by simp [addProjectionForPathE]⟩
      | cons g rest2 =>
        simp only [addProjectionForPathE]
        rcases hg : lookupA ch f with _ | c
        · have hdot : containsDot f = false := hdots f (List.mem_cons_self _ _)
          obtain ⟨c', hc'⟩ := ih
            (.node m pol (getFullyQualifiedPath pa f) [] [] [] [])
            (fun s hs => hdots s (List.mem_cons_of_mem _ hs))
          simp only [hg, hdot]
          rw [if_neg (by simp)]
          rw [hc']
          exact ⟨_, rfl⟩
        · obtain ⟨c', hc'⟩ := ih c
            (fun s hs => hdots s (List.mem_cons_of_mem _ hs))
          simp only [hg]
          rw [hc']
          exact ⟨_, rfl⟩

/-- C9: the construction-time contract violations abort: adding an
expression under a computed-fields ban and adding a child whose name
holds a path separator both fail fast; and under the preconditions that
every policy allows computed fields and all components are
separator-free, the abort branches are unreachable (construction
returns a tree). -/
theorem claim9_fail_fast :
    (∀ (t : ProjectionNode) (f : String), containsDot f = true →
      addChildE t f =
        .error "invariant failure: child name holds a path separator") ∧
    (∀ (t : ProjectionNode) (f : String), containsDot f = false →
      ∃ t', addChildE t f = .ok t') ∧
    (∀ (t : ProjectionNode) (p : List String) (e : Expression),
      t.policies.computedFieldsPolicy = ComputedFieldsPolicy.kBanComputedFields →
      addExpressionForPathE t p e =
        .error "invariant failure: computed fields are banned") ∧
    (∀ (t : ProjectionNode) (p : List String) (e : Expression),
      PoliciesAllow t → (∀ s ∈ p, containsDot s = false) →
      ∃ t', addExpressionForPathE t p e = .ok t') ∧
    (∀ (t : ProjectionNode) (p : List String),
      (∀ s ∈ p, containsDot s = false) →
      ∃ t', addProjectionForPathE t p = .ok t') := by
  refine ⟨?_, ?_, ?_, ?_, ?_⟩
  · intro t f h
    cases t with
    | node m pol pa pf ex ch ord =>
      simp [addChildE, h]
  · intro t f h
    cases t with
    | node m pol pa pf ex ch ord =>
      refine ⟨.node m pol pa pf ex
        (ch ++ [(f, (ProjectionNode.node m pol pa pf ex ch ord).makeChild f)])
        (ord ++ [f]), ?_⟩
      simp [addChildE, h]
  · intro t p e h
    cases t with
    | node m pol pa pf ex ch ord =>
      simp only [ProjectionNode.policies] at h
      rcases p with _ | ⟨f, _ | ⟨g, rest⟩⟩ <;>
        (simp only [addExpressionForPathE, ProjectionNode.policies]
         rw [if_pos (by simp [h])])
  · intro t p e hall hdots
    exact addExpressionForPathE_ok p t e hall hdots
  · intro t p hdots
    exact addProjectionForPathE_ok p t hdots

/-! ### Claim C6: the construction-time bookkeeping invariant -/

theorem PathLe_refl (p : List String) : PathLe p p := ⟨[], List.append_nil p⟩

theorem PathLe_cons_iff {f : String} {p q : List String} :
    PathLe (f :: p) (f :: q) ↔ PathLe p q := by
  constructor
  · rintro ⟨r, hr⟩
    exact ⟨r, by injection hr⟩
  · rintro ⟨r, hr⟩
    exact ⟨r, by rw [List.cons_append, hr]⟩

theorem PathLe_single_cons (f : String) (p : List String) :
    PathLe [f] (f :: p) := ⟨p, rfl⟩

theorem exists_of_mem_keysA {α : Type} {l : List (String × α)} {n : String}
    (h : n ∈ keysA l) : ∃ v, (n, v) ∈ l := by
  rcases List.mem_map.mp h with ⟨⟨k, v⟩, hmem, hk⟩
  exact ⟨v, hk ▸ hmem⟩

theorem terminalPathsChildren_append
    (l₁ l₂ : List (String × ProjectionNode)) :
    terminalPathsChildren (l₁ ++ l₂) =
      terminalPathsChildren l₁ ++ terminalPathsChildren l₂ := by
  induction l₁ with
  | nil => simp [terminalPathsChildren]
  | cons hd tl ih =>
    obtain ⟨n, c⟩ := hd
    simp [terminalPathsChildren, ih]

theorem mem_terminalPathsChildren {l : List (String × ProjectionNode)}
    {q : List String} :
    q ∈ terminalPathsChildren l ↔
      ∃ n c, (n, c) ∈ l ∧ ∃ s ∈ terminalPaths c, q = n :: s := by
  induction l with
  | nil => simp [terminalPathsChildren]
  | cons hd tl ih =>
    obtain ⟨n₀, c₀⟩ := hd
    simp only [terminalPathsChildren, List.mem_append, ih, List.mem_map]
    constructor
    · rintro (⟨s, hs, rfl⟩ | ⟨n, c, hmem, s, hs, rfl⟩)
      · exact ⟨n₀, c₀, List.mem_cons_self _ _, s, hs, rfl⟩
      · exact ⟨n, c, List.mem_cons_of_mem _ hmem, s, hs, rfl⟩
    · rintro ⟨n, c, hmem, s, hs, rfl⟩
      rcases List.mem_cons.mp hmem with h1 | h1
      · obtain ⟨rfl, rfl⟩ := Prod.mk.injEq .. ▸ h1
        exact Or.inl ⟨s, hs, rfl⟩
      · exact Or.inr ⟨n, c, h1, s, hs, rfl⟩

theorem mem_terminalPaths {t : ProjectionNode} {q : List String} :
    q ∈ terminalPaths t ↔
      (∃ n ∈ t.projectedFields, q = [n]) ∨
      (∃ n ∈ exprNames t, q = [n]) ∨
      (∃ n c, (n, c) ∈ t.children ∧ ∃ s ∈ terminalPaths c, q = n :: s) := by
  rw [show terminalPaths t =
    (t.projectedFields.map fun n => [n]) ++
      ((exprNames t).map fun n => [n]) ++
      terminalPathsChildren t.children from by simp [terminalPaths]]
  simp only [List.mem_append, List.mem_map, mem_terminalPathsChildren]
  constructor
  · rintro ((⟨n, hn, rfl⟩ | ⟨n, hn, rfl⟩) | h)
    · exact Or.inl ⟨n, hn, rfl⟩
    · exact Or.inr (Or.inl ⟨n, hn, rfl⟩)
    · exact Or.inr (Or.inr h)
  · rintro (⟨n, hn, rfl⟩ | ⟨n, hn, rfl⟩ | h)
    · exact Or.inl (Or.inl ⟨n, hn, rfl⟩)
    · exact Or.inl (Or.inr ⟨n, hn, rfl⟩)
    · exact Or.inr h

theorem ChildrenInv_mem {l : List (String × ProjectionNode)} {n : String}
    {c : ProjectionNode} (hall : ChildrenInv l) (h : (n, c) ∈ l) :
    terminalPaths c ≠ [] ∧ TreeInv c := by
  induction l with
  | nil => simp at h
  | cons hd tl ih =>
    obtain ⟨n', c'⟩ := hd
    simp only [ChildrenInv] at hall
    rcases List.mem_cons.mp h with h1 | h1
    · obtain ⟨rfl, rfl⟩ := Prod.mk.injEq .. ▸ h1
      exact ⟨hall.1, hall.2.1⟩
    · exact ih hall.2.2 h1

theorem ChildrenInv_setA {l : List (String × ProjectionNode)} {f : String}
    {c' : ProjectionNode} (hall : ChildrenInv l) (hc : TreeInv c')
    (hne : terminalPaths c' ≠ []) : ChildrenInv (setA l f c') := by
  induction l with
  | nil => simp [setA, ChildrenInv, hne, hc]
  | cons hd tl ih =>
    obtain ⟨n', d⟩ := hd
    simp only [ChildrenInv] at hall
    by_cases hk : n' = f
    · simp only [setA, if_pos hk, ChildrenInv]
      exact ⟨hne, hc, hall.2.2⟩
    · simp only [setA, if_neg hk, ChildrenInv]
      exact ⟨hall.1, hall.2.1, ih hall.2.2⟩

theorem ChildrenInv_append_one {l : List (String × ProjectionNode)}
    {f : String} {c' : ProjectionNode} (hall : ChildrenInv l)
    (hc : TreeInv c') (hne : terminalPaths c' ≠ []) :
    ChildrenInv (l ++ [(f, c')]) := by
  induction l with
  | nil => simp [ChildrenInv, hne, hc]
  | cons hd tl ih =>
    obtain ⟨n', d⟩ := hd
    simp only [ChildrenInv, List.cons_append] at hall ⊢
    exact ⟨hall.1, hall.2.1, ih hall.2.2⟩

theorem ChildrenInv_lookup {l : List (String × ProjectionNode)} {f : String}
    {c : ProjectionNode} (hall : ChildrenInv l) (h : lookupA l f = some c) :
    terminalPaths c ≠ [] ∧ TreeInv c :=
  ChildrenInv_mem hall (mem_of_lookupA h)

theorem mem_tpc_setA {l : List (String × ProjectionNode)} {f : String}
    {c' : ProjectionNode} {q : List String} (hnd : (keysA l).Nodup)
    (hl : f ∈ keysA l) :
    q ∈ terminalPathsChildren (setA l f c') ↔
      ((∃ s ∈ terminalPaths c', q = f :: s) ∨
        (∃ n d, (n, d) ∈ l ∧ n ≠ f ∧ ∃ s ∈ terminalPaths d, q = n :: s)) := by
  induction l with
  | nil => simp at hl
  | cons hd tl ih =>
    obtain ⟨n₀, d₀⟩ := hd
    simp only [keysA_cons, List.nodup_cons] at hnd
    by_cases hk : n₀ = f
    · subst hk
      rw [show setA ((n₀, d₀) :: tl) n₀ c' = (n₀, c') :: tl from by
        simp [setA]]
      simp only [mem_terminalPathsChildren]
      constructor
      · rintro ⟨n, d, hmem, s, hs, rfl⟩
        rcases List.mem_cons.mp hmem with h1 | h1
        · obtain ⟨rfl, rfl⟩ := Prod.mk.injEq .. ▸ h1
          exact Or.inl ⟨s, hs, rfl⟩
        · have hnef : n ≠ n₀ := by
            rintro rfl
            exact hnd.1 (mem_keysA_of_mem h1)
          exact Or.inr ⟨n, d, List.mem_cons_of_mem _ h1, hnef, s, hs, rfl⟩
      · rintro (⟨s, hs, rfl⟩ | ⟨n, d, hmem, hnef, s, hs, rfl⟩)
        · exact ⟨n₀, c', List.mem_cons_self _ _, s, hs, rfl⟩
        · rcases List.mem_cons.mp hmem with h1 | h1
          · exact absurd (Prod.mk.injEq .. ▸ h1).1 hnef
          · exact ⟨n, d, List.mem_cons_of_mem _ h1, s, hs, rfl⟩
    · have hl2 : f ∈ keysA tl := by
        rcases List.mem_cons.mp hl with h1 | h1
        · exact absurd h1.symm hk
        · exact h1
      rw [show setA ((n₀, d₀) :: tl) f c' = (n₀, d₀) :: setA tl f c' from by
        simp [setA, hk]]
      rw [show terminalPathsChildren ((n₀, d₀) :: setA tl f c') =
          ((terminalPaths d₀).map fun s => n₀ :: s) ++
            terminalPathsChildren (setA tl f c') from by
        simp [terminalPathsChildren]]
      simp only [List.mem_append, List.mem_map]
      rw [ih hnd.2 hl2]
      constructor
      · rintro (⟨s, hs, rfl⟩ | (⟨s, hs, rfl⟩ | ⟨n, d, hmem, hnef, s, hs, rfl⟩))
        · exact Or.inr ⟨n₀, d₀, List.mem_cons_self _ _, hk, s, hs, rfl⟩
        · exact Or.inl ⟨s, hs, rfl⟩
        · exact Or.inr ⟨n, d, List.mem_cons_of_mem _ hmem, hnef, s, hs, rfl⟩
      · rintro (⟨s, hs, rfl⟩ | ⟨n, d, hmem, hnef, s, hs, rfl⟩)
        · exact Or.inr (Or.inl ⟨s, hs, rfl⟩)
        · rcases List.mem_cons.mp hmem with h1 | h1
          · obtain ⟨rfl, rfl⟩ := Prod.mk.injEq .. ▸ h1
            exact Or.inl ⟨s, hs, rfl⟩
          · exact Or.inr (Or.inr ⟨n, d, h1, hnef, s, hs, rfl⟩)

theorem mem_tpc_nodup {l : List (String × ProjectionNode)} {f : String}
    {c : ProjectionNode} {q : List String} (hnd : (keysA l).Nodup)
    (hl : lookupA l f = some c) :
    q ∈ terminalPathsChildren l ↔
      ((∃ s ∈ terminalPaths c, q = f :: s) ∨
        (∃ n d, (n, d) ∈ l ∧ n ≠ f ∧ ∃ s ∈ terminalPaths d, q = n :: s)) := by
  rw [mem_terminalPathsChildren]
  constructor
  · rintro ⟨n, d, hmem, s, hs, rfl⟩
    by_cases hnf : n = f
    · subst hnf
      have := lookupA_of_mem hnd hmem
      rw [hl] at this
      obtain rfl := Option.some.injEq .. ▸ this.symm
      exact Or.inl ⟨s, hs, rfl⟩
    · exact Or.inr ⟨n, d, hmem, hnf, s, hs, rfl⟩
  · rintro (⟨s, hs, rfl⟩ | ⟨n, d, hmem, _, s, hs, rfl⟩)
    · exact ⟨f, c, mem_of_lookupA hl, s, hs, rfl⟩
    · exact ⟨n, d, hmem, s, hs, rfl⟩

theorem nodup_append_singleton {α : Type} {l : List α} {a : α}
    (h : l.Nodup) (ha : a ∉ l) : (l ++ [a]).Nodup := by
  rw [List.nodup_append]
  exact ⟨h, List.nodup_singleton a,
    fun x hx hxa => ha ((List.mem_singleton.mp hxa) ▸ hx)⟩

theorem TreeInv_emptyNode (m : Mode) (pol : ProjectionPolicies) (pa : String) :
    TreeInv (.node m pol pa [] [] [] []) := by
  simp [TreeInv, NodeInv, ChildrenInv, ProjectionNode.projectedFields,
    ProjectionNode.expressions, ProjectionNode.children, ProjectionNode.order,
    exprNames, childNames, keysA]

theorem terminalPaths_emptyNode (m : Mode) (pol : ProjectionPolicies)
    (pa : String) : terminalPaths (.node m pol pa [] [] [] []) = [] := by
  simp [terminalPaths, terminalPathsChildren, ProjectionNode.projectedFields,
    ProjectionNode.expressions, ProjectionNode.children, exprNames, keysA]

theorem terminalPaths_node (m : Mode) (pol : ProjectionPolicies) (pa : String)
    (pf : List String) (ex : List (String × Expression))
    (ch : List (String × ProjectionNode)) (ord : List String) :
    terminalPaths (.node m pol pa pf ex ch ord) =
      (pf.map fun n => [n]) ++ ((keysA ex).map fun n => [n]) ++
        terminalPathsChildren ch := by
  simp [terminalPaths, ProjectionNode.projectedFields,
    ProjectionNode.expressions, ProjectionNode.children, exprNames]

/-- One `addProjectionForPath` call on a tree whose terminal paths do not
collide with the added path preserves the invariant and adds exactly that
path to the terminal-path set. -/
theorem addProjectionForPathT_step (p : List String) :
    ∀ t : ProjectionNode, p ≠ [] → TreeInv t →
      (∀ s ∈ terminalPaths t, ¬ PathLe s p ∧ ¬ PathLe p s) →
      TreeInv (addProjectionForPathT t p) ∧
      (∀ q, q ∈ terminalPaths (addProjectionForPathT t p) ↔
        (q ∈ terminalPaths t ∨ q = p)) := by
  induction p with
  | nil =>
    intro t hne _ _
    exact absurd rfl hne
  | cons f rest ih =>
    intro t _ hinv hconf
    cases t with
    | node m pol pa pf ex ch ord =>
      simp only [TreeInv, ProjectionNode.children] at hinv
      obtain ⟨hni, hci⟩ := hinv
      simp only [NodeInv, ProjectionNode.projectedFields,
        ProjectionNode.expressions, ProjectionNode.children,
        ProjectionNode.order, exprNames, childNames] at hni
      obtain ⟨hpfnd, hexnd, hchnd, hordnd, hordiff, hpfex, hpfch, hexch⟩ := hni
      cases rest with
      | nil =>
        have hfex : f ∉ keysA ex := fun hf =>
          (hconf [f] (mem_terminalPaths.mpr (Or.inr (Or.inl ⟨f, hf, rfl⟩)))).2
            (PathLe_refl [f])
        have hfch : f ∉ keysA ch := by
          intro hf
          obtain ⟨c, hc⟩ := exists_of_mem_keysA hf
          obtain ⟨htp, _⟩ := ChildrenInv_mem hci hc
          obtain ⟨s, hs⟩ := List.exists_mem_of_ne_nil _ htp
          exact (hconf (f :: s)
            (mem_terminalPaths.mpr (Or.inr (Or.inr ⟨f, c, hc, s, hs, rfl⟩)))).2
            (PathLe_single_cons f s)
        simp only [addProjectionForPathT]
        by_cases hf : f ∈ pf
        · rw [if_pos hf]
          refine ⟨?_, ?_⟩
          · simp only [TreeInv, ProjectionNode.children]
            refine ⟨?_, hci⟩
            simp only [NodeInv, ProjectionNode.projectedFields,
              ProjectionNode.expressions, ProjectionNode.children,
              ProjectionNode.order, exprNames, childNames]
            exact ⟨hpfnd, hexnd, hchnd, hordnd, hordiff, hpfex, hpfch, hexch⟩
          · intro q
            constructor
            · exact fun hq => Or.inl hq
            · rintro (hq | rfl)
              · exact hq
              · exact mem_terminalPaths.mpr (Or.inl ⟨f, hf, rfl⟩)
        · rw [if_neg hf]
          refine ⟨?_, ?_⟩
          · simp only [TreeInv, ProjectionNode.children]
            refine ⟨?_, hci⟩
            simp only [NodeInv, ProjectionNode.projectedFields,
              ProjectionNode.expressions, ProjectionNode.children,
              ProjectionNode.order, exprNames, childNames]
            refine ⟨nodup_append_singleton hpfnd hf, hexnd, hchnd, hordnd,
              hordiff, ?_, ?_, hexch⟩
            · intro n hn
              rcases List.mem_append.mp hn with h1 | h1
              · exact hpfex n h1
              · exact (List.mem_singleton.mp h1) ▸ hfex
            · intro n hn
              rcases List.mem_append.mp hn with h1 | h1
              · exact hpfch n h1
              · exact (List.mem_singleton.mp h1) ▸ hfch
          · intro q
            rw [mem_terminalPaths, mem_terminalPaths]
            simp only [ProjectionNode.projectedFields,
              ProjectionNode.expressions, ProjectionNode.children,
              exprNames, childNames]
            constructor
            · rintro (⟨n, hn, rfl⟩ | hrest)
              · rcases List.mem_append.mp hn with h1 | h1
                · exact Or.inl (Or.inl ⟨n, h1, rfl⟩)
                · exact Or.inr (by rw [List.mem_singleton.mp h1])
              · exact Or.inl (Or.inr hrest)
            · rintro ((⟨n, hn, rfl⟩ | hrest) | rfl)
              · exact Or.inl ⟨n, List.mem_append.mpr (Or.inl hn), rfl⟩
              · exact Or.inr hrest
              · exact Or.inl ⟨f,
                  List.mem_append.mpr (Or.inr (List.mem_singleton.mpr rfl)), rfl⟩
      | cons g rest2 =>
        have hfex : f ∉ keysA ex := fun hf =>
          (hconf [f] (mem_terminalPaths.mpr (Or.inr (Or.inl ⟨f, hf, rfl⟩)))).1
            (PathLe_single_cons f (g :: rest2))
        have hfpf : f ∉ pf := fun hf =>
          (hconf [f] (mem_terminalPaths.mpr (Or.inl ⟨f, hf, rfl⟩))).1
            (PathLe_single_cons f (g :: rest2))
        simp only [addProjectionForPathT]
        rcases hg : lookupA ch f with _ | c
        · -- no child yet: create one and add the tail inside it
          have hfch : f ∉ keysA ch := lookupA_eq_none.mp hg
          obtain ⟨hinvc, hiffc⟩ := ih
            (ProjectionNode.node m pol (getFullyQualifiedPath pa f) [] [] [] [])
            (by simp) (TreeInv_emptyNode _ _ _)
            (by rw [terminalPaths_emptyNode]; intro s hs; simp at hs)
          set c' := addProjectionForPathT
            (ProjectionNode.node m pol (getFullyQualifiedPath pa f) [] [] [] [])
            (g :: rest2) with hc'def
          have hc'mem : ∀ q, q ∈ terminalPaths c' ↔ q = g :: rest2 := by
            intro q
            rw [hiffc q, terminalPaths_emptyNode]
            simp
          have hc'ne : terminalPaths c' ≠ [] := by
            intro h0
            have hmem := (hc'mem (g :: rest2)).mpr rfl
            rw [h0] at hmem
            exact absurd hmem (List.not_mem_nil _)
          have hford : f ∉ ord := by
            intro hf
            rcases (hordiff f).mp hf with h1 | h1
            · exact hfex h1
            · exact hfch h1
          refine ⟨?_, ?_⟩
          · simp only [TreeInv, ProjectionNode.children]
            refine ⟨?_, ChildrenInv_append_one hci hinvc hc'ne⟩
            simp only [NodeInv, ProjectionNode.projectedFields,
              ProjectionNode.expressions, ProjectionNode.children,
              ProjectionNode.order, exprNames, childNames]
            have hkeys : keysA (ch ++ [(f, c')]) = keysA ch ++ [f] := by
              rw [keysA_append]
              rfl
            rw [hkeys]
            refine ⟨hpfnd, hexnd, nodup_append_singleton hchnd hfch,
              nodup_append_singleton hordnd hford, ?_, hpfex, ?_, ?_⟩
            · intro n
              simp only [List.mem_append, List.mem_singleton, hordiff n]
              tauto
            · intro n hn hmem
              rcases List.mem_append.mp hmem with h1 | h1
              · exact hpfch n hn h1
              · exact hfpf ((List.mem_singleton.mp h1) ▸ hn)
            · intro n hn hmem
              rcases List.mem_append.mp hmem with h1 | h1
              · exact hexch n hn h1
              · exact hfex ((List.mem_singleton.mp h1) ▸ hn)
          · intro q
            rw [terminalPaths_node, terminalPaths_node,
              terminalPathsChildren_append]
            simp only [List.mem_append, List.mem_map,
              mem_terminalPathsChildren]
            have hone : (∃ n c, ((n, c) ∈ [(f, c')]) ∧
                ∃ s ∈ terminalPaths c, q = n :: s) ↔ q = f :: g :: rest2 := by
              constructor
              · rintro ⟨n, d, hmem, s, hs, rfl⟩
                obtain ⟨rfl, rfl⟩ :=
                  Prod.mk.injEq .. ▸ (List.mem_singleton.mp hmem)
                rw [(hc'mem s).mp hs]
              · rintro rfl
                exact ⟨f, c', List.mem_singleton.mpr rfl, g :: rest2,
                  (hc'mem _).mpr rfl, rfl⟩
            rw [hone]
            exact (or_assoc ..).symm
        · -- existing child: add the tail inside it
          obtain ⟨hcne, hcinv⟩ := ChildrenInv_lookup hci hg
          have hfchmem : f ∈ keysA ch := by
            rw [← lookupA_isSome_iff, hg]
            rfl
          have hconfc : ∀ s ∈ terminalPaths c,
              ¬ PathLe s (g :: rest2) ∧ ¬ PathLe (g :: rest2) s := by
            intro s hs
            have h2 := hconf (f :: s) (mem_terminalPaths.mpr
              (Or.inr (Or.inr ⟨f, c, mem_of_lookupA hg, s, hs, rfl⟩)))
            exact ⟨fun hle => h2.1 (PathLe_cons_iff.mpr hle),
              fun hle => h2.2 (PathLe_cons_iff.mpr hle)⟩
          obtain ⟨hinvc, hiffc⟩ := ih c (by simp) hcinv hconfc
          have hc'ne : terminalPaths (addProjectionForPathT c (g :: rest2)) ≠
              [] := by
            intro h0
            have hmem := (hiffc (g :: rest2)).mpr (Or.inr rfl)
            rw [h0] at hmem
            exact absurd hmem (List.not_mem_nil _)
          refine ⟨?_, ?_⟩
          · simp only [TreeInv, ProjectionNode.children]
            refine ⟨?_, ChildrenInv_setA hci hinvc hc'ne⟩
            simp only [NodeInv, ProjectionNode.projectedFields,
              ProjectionNode.expressions, ProjectionNode.children,
              ProjectionNode.order, exprNames, childNames]
            have hkeys : keysA (setA ch f
                (addProjectionForPathT c (g :: rest2))) = keysA ch := by
              rw [keysA_setA, if_pos hfchmem]
            rw [hkeys]
            exact ⟨hpfnd, hexnd, hchnd, hordnd, hordiff, hpfex, hpfch, hexch⟩
          · intro q
            rw [terminalPaths_node, terminalPaths_node]
            simp only [List.mem_append, List.mem_map]
            rw [mem_tpc_setA hchnd hfchmem, mem_tpc_nodup hchnd hg]
            have hsplit : (∃ s ∈ terminalPaths
                  (addProjectionForPathT c (g :: rest2)), q = f :: s) ↔
                ((∃ s ∈ terminalPaths c, q = f :: s) ∨ q = f :: g :: rest2) := by
              constructor
              · rintro ⟨s, hs, rfl⟩
                rcases (hiffc s).mp hs with h1 | rfl
                · exact Or.inl ⟨s, h1, rfl⟩
                · exact Or.inr rfl
              · rintro (⟨s, hs, rfl⟩ | rfl)
                · exact ⟨s, (hiffc s).mpr (Or.inl hs), rfl⟩
                · exact ⟨g :: rest2, (hiffc _).mpr (Or.inr rfl), rfl⟩
            rw [hsplit]
            itauto

/-- One `addExpressionForPath` call on a tree whose terminal paths do
not collide with the added path preserves the invariant and adds exactly
that path to the terminal-path set. -/
theorem addExpressionForPathT_step (p : List String) (e : Expression) :
    ∀ t : ProjectionNode, p ≠ [] → TreeInv t →
      (∀ s ∈ terminalPaths t, ¬ PathLe s p ∧ ¬ PathLe p s) →
      TreeInv (addExpressionForPathT t p e) ∧
      (∀ q, q ∈ terminalPaths (addExpressionForPathT t p e) ↔
        (q ∈ terminalPaths t ∨ q = p)) := by
  induction p with
  | nil =>
    intro t hne _ _
    exact absurd rfl hne
  | cons f rest ih =>
    intro t _ hinv hconf
    cases t with
    | node m pol pa pf ex ch ord =>
      simp only [TreeInv, ProjectionNode.children] at hinv
      obtain ⟨hni, hci⟩ := hinv
      simp only [NodeInv, ProjectionNode.projectedFields,
        ProjectionNode.expressions, ProjectionNode.children,
        ProjectionNode.order, exprNames, childNames] at hni
      obtain ⟨hpfnd, hexnd, hchnd, hordnd, hordiff, hpfex, hpfch, hexch⟩ := hni
      cases rest with
      | nil =>
        have hfpf : f ∉ pf := fun hf =>
          (hconf [f] (mem_terminalPaths.mpr (Or.inl ⟨f, hf, rfl⟩))).2
            (PathLe_refl [f])
        have hfex : f ∉ keysA ex := fun hf =>
          (hconf [f] (mem_terminalPaths.mpr (Or.inr (Or.inl ⟨f, hf, rfl⟩)))).2
            (PathLe_refl [f])
        have hfch : f ∉ keysA ch := by
          intro hf
          obtain ⟨c, hc⟩ := exists_of_mem_keysA hf
          obtain ⟨htp, _⟩ := ChildrenInv_mem hci hc
          obtain ⟨s, hs⟩ := List.exists_mem_of_ne_nil _ htp
          exact (hconf (f :: s)
            (mem_terminalPaths.mpr (Or.inr (Or.inr ⟨f, c, hc, s, hs, rfl⟩)))).2
            (PathLe_single_cons f s)
        have hford : f ∉ ord := by
          intro hf
          rcases (hordiff f).mp hf with h1 | h1
          · exact hfex h1
          · exact hfch h1
        have hsetex : keysA (setA ex f e) = keysA ex ++ [f] := by
          rw [keysA_setA, if_neg hfex]
        simp only [addExpressionForPathT]
        refine ⟨?_, ?_⟩
        · simp only [TreeInv, ProjectionNode.children]
          refine ⟨?_, hci⟩
          simp only [NodeInv, ProjectionNode.projectedFields,
            ProjectionNode.expressions, ProjectionNode.children,
            ProjectionNode.order, exprNames, childNames]
          rw [hsetex]
          refine ⟨hpfnd, nodup_append_singleton hexnd hfex, hchnd,
            nodup_append_singleton hordnd hford, ?_, ?_, hpfch, ?_⟩
          · intro n
            simp only [List.mem_append, List.mem_singleton, hordiff n]
            tauto
          · intro n hn hmem
            rcases List.mem_append.mp hmem with h1 | h1
            · exact hpfex n hn h1
            · exact hfpf ((List.mem_singleton.mp h1) ▸ hn)
          · intro n hn
            rcases List.mem_append.mp hn with h1 | h1
            · exact hexch n h1
            · exact (List.mem_singleton.mp h1) ▸ hfch
        · intro q
          rw [terminalPaths_node, terminalPaths_node, hsetex]
          simp only [List.mem_append, List.mem_map, List.mem_singleton]
          constructor
          · rintro ((⟨n, hn, rfl⟩ | ⟨n, hn, rfl⟩) | h)
            · exact Or.inl (Or.inl (Or.inl ⟨n, hn, rfl⟩))
            · rcases hn with h1 | rfl
              · exact Or.inl (Or.inl (Or.inr ⟨n, h1, rfl⟩))
              · exact Or.inr rfl
            · exact Or.inl (Or.inr h)
          · rintro ((((⟨n, hn, rfl⟩ | ⟨n, hn, rfl⟩) | h)) | rfl)
            · exact Or.inl (Or.inl ⟨n, hn, rfl⟩)
            · exact Or.inl (Or.inr ⟨n, Or.inl hn, rfl⟩)
            · exact Or.inr h
            · exact Or.inl (Or.inr ⟨f, Or.inr rfl, rfl⟩)
      | cons g rest2 =>
        have hfex : f ∉ keysA ex := fun hf =>
          (hconf [f] (mem_terminalPaths.mpr (Or.inr (Or.inl ⟨f, hf, rfl⟩)))).1
            (PathLe_single_cons f (g :: rest2))
        have hfpf : f ∉ pf := fun hf =>
          (hconf [f] (mem_terminalPaths.mpr (Or.inl ⟨f, hf, rfl⟩))).1
            (PathLe_single_cons f (g :: rest2))
        simp only [addExpressionForPathT]
        rcases hg : lookupA ch f with _ | c
        · -- no child yet: create one and add the tail inside it
          have hfch : f ∉ keysA ch := lookupA_eq_none.mp hg
          obtain ⟨hinvc, hiffc⟩ := ih
            (ProjectionNode.node m pol (getFullyQualifiedPath pa f) [] [] [] [])
            (by simp) (TreeInv_emptyNode _ _ _)
            (by rw [terminalPaths_emptyNode]; intro s hs; simp at hs)
          set c' := addExpressionForPathT
            (ProjectionNode.node m pol (getFullyQualifiedPath pa f) [] [] [] [])
            (g :: rest2) e with hc'def
          have hc'mem : ∀ q, q ∈ terminalPaths c' ↔ q = g :: rest2 := by
            intro q
            rw [hiffc q, terminalPaths_emptyNode]
            simp
          have hc'ne : terminalPaths c' ≠ [] := by
            intro h0
            have hmem := (hc'mem (g :: rest2)).mpr rfl
            rw [h0] at hmem
            exact absurd hmem (List.not_mem_nil _)
          have hford : f ∉ ord := by
            intro hf
            rcases (hordiff f).mp hf with h1 | h1
            · exact hfex h1
            · exact hfch h1
          refine ⟨?_, ?_⟩
          · simp only [TreeInv, ProjectionNode.children]
            refine ⟨?_, ChildrenInv_append_one hci hinvc hc'ne⟩
            simp only [NodeInv, ProjectionNode.projectedFields,
              ProjectionNode.expressions, ProjectionNode.children,
              ProjectionNode.order, exprNames, childNames]
            have hkeys : keysA (ch ++ [(f, c')]) = keysA ch ++ [f] := by
              rw [keysA_append]
              rfl
            rw [hkeys]
            refine ⟨hpfnd, hexnd, nodup_append_singleton hchnd hfch,
              nodup_append_singleton hordnd hford, ?_, hpfex, ?_, ?_⟩
            · intro n
              simp only [List.mem_append, List.mem_singleton, hordiff n]
              tauto
            · intro n hn hmem
              rcases List.mem_append.mp hmem with h1 | h1
              · exact hpfch n hn h1
              · exact hfpf ((List.mem_singleton.mp h1) ▸ hn)
            · intro n hn hmem
              rcases List.mem_append.mp hmem with h1 | h1
              · exact hexch n hn h1
              · exact hfex ((List.mem_singleton.mp h1) ▸ hn)
          · intro q
            rw [terminalPaths_node, terminalPaths_node,
              terminalPathsChildren_append]
            simp only [List.mem_append, List.mem_map,
              mem_terminalPathsChildren]
            have hone : (∃ n c, ((n, c) ∈ [(f, c')]) ∧
                ∃ s ∈ terminalPaths c, q = n :: s) ↔ q = f :: g :: rest2 := by
              constructor
              · rintro ⟨n, d, hmem, s, hs, rfl⟩
                obtain ⟨rfl, rfl⟩ :=
                  Prod.mk.injEq .. ▸ (List.mem_singleton.mp hmem)
                rw [(hc'mem s).mp hs]
              · rintro rfl
                exact ⟨f, c', List.mem_singleton.mpr rfl, g :: rest2,
                  (hc'mem _).mpr rfl, rfl⟩
            rw [hone]
            exact (or_assoc ..).symm
        · -- existing child: add the tail inside it
          obtain ⟨hcne, hcinv⟩ := ChildrenInv_lookup hci hg
          have hfchmem : f ∈ keysA ch := by
            rw [← lookupA_isSome_iff, hg]
            rfl
          have hconfc : ∀ s ∈ terminalPaths c,
              ¬ PathLe s (g :: rest2) ∧ ¬ PathLe (g :: rest2) s := by
            intro s hs
            have h2 := hconf (f :: s) (mem_terminalPaths.mpr
              (Or.inr (Or.inr ⟨f, c, mem_of_lookupA hg, s, hs, rfl⟩)))
            exact ⟨fun hle => h2.1 (PathLe_cons_iff.mpr hle),
              fun hle => h2.2 (PathLe_cons_iff.mpr hle)⟩
          obtain ⟨hinvc, hiffc⟩ := ih c (by simp) hcinv hconfc
          have hc'ne : terminalPaths (addExpressionForPathT c (g :: rest2) e) ≠
              [] := by
            intro h0
            have hmem := (hiffc (g :: rest2)).mpr (Or.inr rfl)
            rw [h0] at hmem
            exact absurd hmem (List.not_mem_nil _)
          refine ⟨?_, ?_⟩
          · simp only [TreeInv, ProjectionNode.children]
            refine ⟨?_, ChildrenInv_setA hci hinvc hc'ne⟩
            simp only [NodeInv, ProjectionNode.projectedFields,
              ProjectionNode.expressions, ProjectionNode.children,
              ProjectionNode.order, exprNames, childNames]
            have hkeys : keysA (setA ch f
                (addExpressionForPathT c (g :: rest2) e)) = keysA ch := by
              rw [keysA_setA, if_pos hfchmem]
            rw [hkeys]
            exact ⟨hpfnd, hexnd, hchnd, hordnd, hordiff, hpfex, hpfch, hexch⟩
          · intro q
            rw [terminalPaths_node, terminalPaths_node]
            simp only [List.mem_append, List.mem_map]
            rw [mem_tpc_setA hchnd hfchmem, mem_tpc_nodup hchnd hg]
            have hsplit : (∃ s ∈ terminalPaths
                  (addExpressionForPathT c (g :: rest2) e), q = f :: s) ↔
                ((∃ s ∈ terminalPaths c, q = f :: s) ∨
                  q = f :: g :: rest2) := by
              constructor
              · rintro ⟨s, hs, rfl⟩
                rcases (hiffc s).mp hs with h1 | rfl
                · exact Or.inl ⟨s, h1, rfl⟩
                · exact Or.inr rfl
              · rintro (⟨s, hs, rfl⟩ | rfl)
                · exact ⟨s, (hiffc s).mpr (Or.inl hs), rfl⟩
                · exact ⟨g :: rest2, (hiffc _).mpr (Or.inr rfl), rfl⟩
            rw [hsplit]
            itauto

/-- Any collision-free construction sequence starting from an invariant
tree whose terminal paths avoid the sequence keeps the invariant. -/
theorem buildOps_inv (ops : List AddOp) :
    ∀ t : ProjectionNode, TreeInv t →
      (∀ op ∈ ops, op.path ≠ []) → IndepPaths ops →
      (∀ op ∈ ops, ∀ s ∈ terminalPaths t,
        ¬ PathLe s op.path ∧ ¬ PathLe op.path s) →
      TreeInv (buildOps t ops) := by
  induction ops with
  | nil =>
    intro t hinv _ _ _
    exact hinv
  | cons op ops ihops =>
    intro t hinv hne hind hconf
    have hstep : TreeInv (applyOp t op) ∧
        (∀ q, q ∈ terminalPaths (applyOp t op) ↔
          (q ∈ terminalPaths t ∨ q = op.path)) := by
      cases op with
      | proj p =>
        exact addProjectionForPathT_step p t (hne _ (List.mem_cons_self _ _))
          hinv (fun s hs => hconf _ (List.mem_cons_self _ _) s hs)
      | expr p e =>
        exact addExpressionForPathT_step p e t (hne _ (List.mem_cons_self _ _))
          hinv (fun s hs => hconf _ (List.mem_cons_self _ _) s hs)
    rw [show buildOps t (op :: ops) = buildOps (applyOp t op) ops from rfl]
    refine ihops (applyOp t op) hstep.1
      (fun o ho => hne o (List.mem_cons_of_mem _ ho))
      ((List.pairwise_cons.mp hind).2) ?_
    intro o ho s hs
    rcases (hstep.2 s).mp hs with h1 | rfl
    · exact hconf o (List.mem_cons_of_mem _ ho) s h1
    · exact (List.pairwise_cons.mp hind).1 o ho

/-- C6 (amended): after any sequence of `addProjectionForPath` /
`addExpressionForPath` calls on non-empty paths none of which extends
another (no prefix collisions, no repeats), every node of the resulting
tree satisfies the bookkeeping invariant: plain fields, expression names
and child names are duplicate-free and pairwise disjoint (each immediate
name belongs to exactly one of the three), and the declared order lists
exactly the expression and child names, each exactly once. -/
theorem claim6_construction_invariant (m : Mode) (pol : ProjectionPolicies)
    (ops : List AddOp) (hne : ∀ op ∈ ops, op.path ≠ [])
    (hind : IndepPaths ops) :
    TreeInv (buildOps (emptyRoot m pol) ops) := by
  refine buildOps_inv ops (emptyRoot m pol) (TreeInv_emptyNode m pol "") hne
    hind ?_
  intro op hop s hs
  have h0 : terminalPaths (emptyRoot m pol) = [] :=
    terminalPaths_emptyNode m pol ""
  rw [h0] at hs
  exact absurd hs (List.not_mem_nil _)

/-- C6 counterexample: for prefix-colliding sequences the invariant
claimed for arbitrary call sequences fails on the code.  Adding `a.b`
then `a` as plain paths leaves `a` both plainly projected and a child
(not "exactly one"); adding expression `a` then expression `a.b` leaves
`a` both an expression name and a child name — nothing removes it from
the expression map. -/
theorem claim6_counterexample :
    ("a" ∈ exTreeOverlap.projectedFields ∧ "a" ∈ childNames exTreeOverlap) ∧
    ("a" ∈ exprNames exTreeExprChild ∧ "a" ∈ childNames exTreeExprChild) := by
  decide

/-- Witness for the amended C6 at a concrete collision-free sequence. -/
theorem claim6_construction_invariant_witness :
    TreeInv (buildOps (emptyRoot .inclusion polAllow)
      [.proj ["a", "b"], .expr ["c"] (.const (.intV 1))]) := by
  refine claim6_construction_invariant _ _ _ ?_ ?_
  · intro op hop
    rcases List.mem_cons.mp hop with rfl | hop2
    · simp [AddOp.path]
    · rcases List.mem_singleton.mp hop2 with rfl
      simp [AddOp.path]
  · refine List.Pairwise.cons ?_ (List.pairwise_singleton _ _)
    intro o ho
    rcases List.mem_singleton.mp ho with rfl
    constructor
    · rintro ⟨r, hr⟩
      simp [AddOp.path] at hr
    · rintro ⟨r, hr⟩
      simp [AddOp.path] at hr

/-- Witness for C9: a dotted child name aborts, a banned policy aborts,
and a separator-free projection path construction succeeds. -/
theorem claim9_fail_fast_witness :
    addChildE (emptyRoot .inclusion polAllow) "a.b" =
      .error "invariant failure: child name holds a path separator" ∧
    addExpressionForPathE (emptyRoot .inclusion polBan) ["a"]
        (.const (.intV 1)) =
      .error "invariant failure: computed fields are banned" ∧
    (∃ t', addProjectionForPathE (emptyRoot .exclusion polAllow) ["a", "b"] =
      .ok t') :=
  ⟨claim9_fail_fast.1 _ _ (by decide),
   claim9_fail_fast.2.2.1 _ _ _ (by decide),
   claim9_fail_fast.2.2.2.2 _ _ (by decide)⟩

end MongoProjection
